import Mathlib

/-!
Shallow embedding of the ELF object model of `src/elf.cc` (pstack).

Machine integers are modelled as `Nat`; where the C++ code performs 64-bit
unsigned arithmetic that can wrap (address sums, unsigned subtraction), the
model reduces modulo `2 ^ 64` explicitly.  Readers (byte views) are abstracted:
a typed read at an offset becomes list indexing or an explicit content
function, as noted at each definition.
-/

namespace Pstack.Elf

/-- Modulus of the 64-bit `Elf::Addr` / `Elf::Off` arithmetic. -/
def addrMod : Nat := 2 ^ 64

/-- `SHN_UNDEF` (section index 0, "undefined"). -/
def SHN_UNDEF : Nat := 0

/-- `SHT_NULL` (section type 0). -/
def SHT_NULL : Nat := 0

/-- `SHT_PROGBITS`. -/
def SHT_PROGBITS : Nat := 1

/-- `SHT_DYNAMIC`. -/
def SHT_DYNAMIC : Nat := 6

/-- `STT_NOTYPE` (symbol type 0: no type filter in `findSymbolByAddress`). -/
def STT_NOTYPE : Nat := 0

/-- `SHF_ALLOC` section flag (bit 1). -/
def SHF_ALLOC : Nat := 2

/-- `PT_LOAD` program-header type. -/
def PT_LOAD : Nat := 1

/-- `PT_NOTE` program-header type. -/
def PT_NOTE : Nat := 4

/-- `STN_UNDEF`: chain terminator of the SysV hash table. -/
def STN_UNDEF : Nat := 0

/-- `ELF_BITS`: the bit width of `Elf::Off`, the Bloom-word type of the GNU
hash table. -/
def ELF_BITS : Nat := 64

/-- An ELF symbol record (`Sym`), with the fields `elf.cc` consults.  Field
values are the raw unsigned machine words read from the image. -/
structure Sym where
  st_name : Nat
  st_value : Nat
  st_size : Nat
  st_info : Nat
  st_shndx : Nat
  deriving Repr, DecidableEq

/-- `undef()`: the zeroed sentinel symbol with `st_shndx == SHN_UNDEF`. -/
def undef : Sym := { st_name := 0, st_value := 0, st_size := 0, st_info := 0, st_shndx := SHN_UNDEF }

/-- `ELF_ST_TYPE`: the low four bits of `st_info`. -/
def ELF_ST_TYPE (info : Nat) : Nat := info &&& 0xf

/-- A program header (`Phdr`), restricted to the fields the queries read.
(`p_offset`/`p_filesz` matter only for the notes iterator, which abstracts a
`PT_NOTE` segment by its content view; see `NoteSeg`.) -/
structure Phdr where
  p_type : Nat
  p_vaddr : Nat
  p_memsz : Nat
  deriving Repr, DecidableEq

/-- End of a segment in 64-bit address arithmetic: `p_vaddr + p_memsz`. -/
def phdrEnd (h : Phdr) : Nat := (h.p_vaddr + h.p_memsz) % addrMod

/-- A section header, restricted to the fields the queries read. -/
structure Shdr where
  sh_type : Nat
  sh_flags : Nat
  sh_addr : Nat
  deriving Repr, DecidableEq

/- Names (`std::string`) are modelled as byte sequences, one `Char` per
byte (symbol and section names are ASCII). -/

/-- `s.rfind(pat, 0) == 0` — does `s` begin with `pat`?  Compared byte by
byte, `pat` exhausted first. -/
def strStarts : List Char → List Char → Bool
  | [], _ => true
  | _ :: _, [] => false
  | p :: ps, c :: cs => p = c && strStarts ps cs

/-- `std::equal(pat.rbegin(), pat.rend(), s.rbegin())` — does `s` end with
`pat`?  The C++ form walks both strings from the back and never checks that
`s` is long enough (undefined for shorter `s`); the model compares the
reversals, yielding `false` then. -/
def strEnds (pat s : List Char) : Bool := strStarts pat.reverse s.reverse

/-- A `Section`: its resolved name plus the header.  The lazy byte view
(`Section::io`) is not modelled; no claim depends on section contents. -/
structure Section where
  name : List Char
  shdr : Shdr
  deriving Repr, DecidableEq

/-- The statically default-constructed null `Section` (`sh_type == SHT_NULL`),
which `elf.cc` keeps at index 0 of `sectionHeaders`. -/
def nullSection : Section := { name := [], shdr := { sh_type := SHT_NULL, sh_flags := 0, sh_addr := 0 } }

/-- Modelled from the spec: a `Section` "converts to false in boolean context"
exactly when it is the null section; `Section::operator bool` lives in the
`libpstack/elf.h` header, which is not part of `src/`.  Truthiness is
`sh_type != SHT_NULL`, matching the null-section sentinel of §3 of the spec
and the `sh_type` test `Object::getSection(Word)` performs. -/
def sectionTruthy (s : Section) : Bool := s.shdr.sh_type != SHT_NULL

/-- SysV `elf_hash`, 32-bit arithmetic, one step per input byte. -/
def elf_hashStep (h : Nat) (c : Nat) : Nat :=
  let h1 := ((h <<< 4) + c) % 2 ^ 32
  let g := h1 &&& 0xf0000000
  let h2 := if g != 0 then h1 ^^^ (g >>> 24) else h1
  h2 &&& (0xffffffff ^^^ g)

/-- `elf_hash` from `elf.cc` (System V ABI), one step per input byte. -/
def elf_hash (text : List Char) : Nat :=
  text.foldl (fun h c => elf_hashStep h c.toNat) 0

/-- `gnu_hash` from `elf.cc` (`h = h*33 + c`, seed 5381, 32-bit). -/
def gnu_hash (s : List Char) : Nat :=
  s.foldl (fun h c => ((h <<< 5) + h + c.toNat) % 2 ^ 32) 5381

/-! ## Symbol versioning (`Object::symbolVersion`) -/

/-- The version tables `Object::symbolVersions()` builds from
`.gnu.version_r` / `.gnu.version_d`: `versions` maps a version index to the
recorded version name (`std::map<int, std::string>`), modelled as an
association list. -/
structure SymbolVersioning where
  versions : List (Nat × String)
  deriving Repr, DecidableEq

/-- `Object::symbolVersion(VersionIdx)`: mask `idx` with `0x7fff`; indices
`0` and `1` yield `std::nullopt`; otherwise `versions.at(i)`, whose
`std::out_of_range` throw is modelled as `Except.error`. -/
def symbolVersion (vi : SymbolVersioning) (idx : Nat) : Except Unit (Option String) :=
  let i := idx &&& 0x7fff
  if 2 ≤ i then
    match vi.versions.lookup i with
    | some name => .ok (some name)
    | none => .error ()
  else
    .ok none

/-! ## GNU hash table (`GnuHash`) -/

/-- The `.gnu_hash` header. -/
structure GnuHeader where
  nbuckets : Nat
  symoffset : Nat
  bloom_size : Nat
  bloom_shift : Nat
  deriving Repr, DecidableEq

/-- The GNU hash accelerator.  The code keeps one reader over the whole
section and addresses the Bloom words, buckets and chains through the
header-resident offset helpers `bloomoff`/`bucketoff`/`chainoff`
(declared in `libpstack/elf.h`, outside `src/`); per the spec's layout
"header, bloom words, buckets, chains" these address three disjoint arrays,
modelled as three lists.  `syms` and `strings` are the `.dynsym` and its
string table, exactly the readers the accelerator is constructed over.
A typed read outside a reader throws in the code; the model's `getD`
defaults are unreachable under the well-formedness hypotheses. -/
structure GnuHash where
  header : GnuHeader
  bloom : List Nat
  buckets : List Nat
  chain : List Nat
  syms : List Sym
  strings : Nat → List Char

/-- The name of symbol `i` of the table the accelerator indexes. -/
def GnuHash.nameAt (g : GnuHash) (i : Nat) : List Char :=
  g.strings (g.syms.getD i undef).st_name

/-- The bucket (hash modulo `nbuckets`) of symbol `i`. -/
def GnuHash.bucketOf (g : GnuHash) (i : Nat) : Nat :=
  gnu_hash (g.nameAt i) % g.header.nbuckets

/-- The Bloom mask of `GnuHash::findSymbol`:
`Off(1) << symhash % ELF_BITS | Off(1) << (symhash >> bloom_shift) % ELF_BITS`. -/
def gnuBloomMask (shift : Nat) (symhash : Nat) : Nat :=
  (1 <<< (symhash % ELF_BITS)) ||| (1 <<< ((symhash >>> shift) % ELF_BITS))

/-- The `for(;;)` chain walk of `GnuHash::findSymbol`.  The walk consumes one
chain entry per step; `fuel` bounds it by the size of the chain array, which
the walk cannot leave on a well-formed table (running past it would make the
code's reads throw; the model returns the miss pair). -/
def gnuChainScan (g : GnuHash) (name : List Char) (symhash : Nat) : Nat → Nat → Nat × Sym
  | _, 0 => (0, undef)
  | idx, fuel + 1 =>
    let sym := g.syms.getD idx undef
    let chainhash := g.chain.getD (idx - g.header.symoffset) 0
    if (chainhash ||| 1) = (symhash ||| 1) ∧ g.strings sym.st_name = name then
      (idx, sym)
    else if chainhash &&& 1 ≠ 0 then
      (0, undef)
    else
      gnuChainScan g name symhash (idx + 1) fuel

/-- `GnuHash::findSymbol`: Bloom prefilter, bucket load, chain walk. -/
def GnuHash.findSymbol (g : GnuHash) (name : List Char) : Nat × Sym :=
  let symhash := gnu_hash name
  let bloomword := g.bloom.getD ((symhash / ELF_BITS) % g.header.bloom_size) 0
  let mask := gnuBloomMask g.header.bloom_shift symhash
  if bloomword &&& mask ≠ mask then
    (0, undef)
  else
    let idx := g.buckets.getD (symhash % g.header.nbuckets) 0
    if idx < g.header.symoffset then
      (0, undef)
    else
      gnuChainScan g name symhash idx g.chain.length

/-! ## SysV hash table (`SymHash`) -/

/-- The SysV `.hash` accelerator.  `SymHash::SymHash` copies the section into
memory as words `nbucket, nchain, buckets[nbucket], chains[nchain]`; the two
arrays are modelled as lists.  `syms`/`strings` are the `.dynsym` readers. -/
structure SymHash where
  nbucket : Nat
  nchain : Nat
  buckets : List Nat
  chains : List Nat
  syms : List Sym
  strings : Nat → List Char

/-- The name of symbol `i` of the table the accelerator indexes. -/
def SymHash.nameAt (h : SymHash) (i : Nat) : List Char :=
  h.strings (h.syms.getD i undef).st_name

/-- The chain walk of `SymHash::findSymbol`
(`for (i = buckets[bucket]; i != STN_UNDEF; i = chains[i])`).  `fuel` bounds
the walk; a well-formed table reaches `STN_UNDEF` within `nchain` steps. -/
def sysvScan (h : SymHash) (name : List Char) : Nat → Nat → Nat × Sym
  | _, 0 => (0, undef)
  | i, fuel + 1 =>
    if i = STN_UNDEF then
      (0, undef)
    else
      let candidate := h.syms.getD i undef
      if h.strings candidate.st_name = name then
        (i, candidate)
      else
        sysvScan h name (h.chains.getD i 0) fuel

/-- `SymHash::findSymbol`. -/
def SymHash.findSymbol (h : SymHash) (name : List Char) : Nat × Sym :=
  sysvScan h name (h.buckets.getD (elf_hash name % h.nbucket) 0) (h.nchain + 1)

/-! ## The `Object` aggregate -/

/-- An opened ELF image (`Elf::Object`), restricted to the state the claims
exercise.  `namedSection` is the name-to-index map; `programHeaders` is the
map from segment type to the group of headers of this type, each group sorted
ascending by `p_vaddr` by the constructor; `symtab`/`dynsym` are the parsed
symbol tables, each entry paired with its resolved name (the code resolves
`st_name` through the table's linked string section on demand);
`gnuHash`/`sysvHash` are the lazy hash-accelerator slots (absent when the
image has no such section); `debugData` is the lazy nested `.gnu_debugdata`
mini-image.  The type is inductive because the nested image is itself an
`Object`. -/
inductive Object where
  | mk
    (sectionHeaders : List Section)
    (namedSection : List (List Char × Nat))
    (programHeaders : List (Nat × List Phdr))
    (symtab : List (Sym × List Char))
    (dynsym : List (Sym × List Char))
    (gnuHash : Option GnuHash)
    (sysvHash : Option SymHash)
    (debugData : Option Object)

/-- The section-header list, `sectionHeaders[0]` being the null section. -/
def Object.sectionHeaders : Object → List Section
  | .mk s _ _ _ _ _ _ _ => s

/-- The section name-to-index map. -/
def Object.namedSection : Object → List (List Char × Nat)
  | .mk _ n _ _ _ _ _ _ => n

/-- The per-type program-header groups. -/
def Object.programHeaders : Object → List (Nat × List Phdr)
  | .mk _ _ p _ _ _ _ _ => p

/-- The `.symtab` table with resolved names. -/
def Object.symtab : Object → List (Sym × List Char)
  | .mk _ _ _ t _ _ _ _ => t

/-- The `.dynsym` table with resolved names. -/
def Object.dynsym : Object → List (Sym × List Char)
  | .mk _ _ _ _ d _ _ _ => d

/-- The lazy `.gnu_hash` accelerator slot (`Object::gnu_hash()`). -/
def Object.gnuHash : Object → Option GnuHash
  | .mk _ _ _ _ _ g _ _ => g

/-- The lazy SysV `.hash` accelerator slot (`Object::hash()`). -/
def Object.sysvHash : Object → Option SymHash
  | .mk _ _ _ _ _ _ h _ => h

/-- The lazy nested `.gnu_debugdata` image slot. -/
def Object.debugData : Object → Option Object
  | .mk _ _ _ _ _ _ _ d => d

/-- `Object::getSegments(type)`: the group of program headers of this type,
or the static empty list when the map has no such key. -/
def Object.getSegments (o : Object) (type : Nat) : List Phdr :=
  (o.programHeaders.lookup type).getD []

/-- `Object::endVA()`: `programHeaders.at(PT_LOAD)` (throws
`std::out_of_range`, modelled as `Except.error`, when the image has no
`PT_LOAD` segment), then `p_vaddr + p_memsz` of the group's last element.
The constructor only creates non-empty groups, so the last element exists
whenever the key does; an empty group is unreachable and also mapped to the
error branch. -/
def Object.endVA (o : Object) : Except Unit Nat :=
  match o.programHeaders.lookup PT_LOAD with
  | none => .error ()
  | some loadable =>
    match loadable.getLast? with
    | none => .error ()
    | some last => .ok ((last.p_vaddr + last.p_memsz) % addrMod)

/-- The comparator position of `std::lower_bound` in
`Object::getSegmentForAddress`: the first header whose
`p_vaddr + p_memsz > addr`.  (`std::lower_bound` requires the sequence to be
partitioned by the comparator — guaranteed by the constructor's `p_vaddr`
sort for non-overlapping `PT_LOAD` segments — and then returns exactly the
first element for which `p_vaddr + p_memsz <= addr` fails.) -/
def lowerBoundEnd (hdrs : List Phdr) (a : Nat) : Option Phdr :=
  hdrs.find? (fun h => a < phdrEnd h)

/-- The search path of `Object::getSegmentForAddress` after a cache miss:
`std::lower_bound` over the `PT_LOAD` group, then the `p_vaddr <= a`
confirmation; a miss leaves the cache unchanged. -/
def Object.segmentSearch (o : Object) (cache : Option Phdr) (a : Nat) :
    Option Phdr × Option Phdr :=
  match lowerBoundEnd (o.getSegments PT_LOAD) a with
  | some pos =>
    if pos.p_vaddr ≤ a then (some pos, some pos) else (none, cache)
  | none => (none, cache)

/-- `Object::getSegmentForAddress(a)` with the one-slot cache
`lastSegmentForAddress` passed and returned explicitly: result plus updated
cache. -/
def Object.getSegmentForAddress (o : Object) (cache : Option Phdr) (a : Nat) :
    Option Phdr × Option Phdr :=
  match cache with
  | some last =>
    if last.p_vaddr ≤ a ∧ a < phdrEnd last then
      (some last, some last)
    else
      o.segmentSearch cache a
  | none => o.segmentSearch cache a

mutual

/-- `Object::getSection(name, type)` with a recursion-depth fuel: the two
retries only ever prepend `".z"` to a `".debug_"` name or append `".dwo"`,
so the real recursion depth is at most 3 and `Object.getSection` runs the
helper with fuel 4, which is never exhausted. -/
def getSectionAux (o : Object) (fuel : Nat) (name : List Char) (type : Nat) : Section :=
  match fuel with
  | 0 => o.sectionHeaders.getD 0 nullSection
  | fuel + 1 =>
    match o.namedSection.lookup name with
    | some idx =>
      let ref := o.sectionHeaders.getD idx nullSection
      if ref.shdr.sh_type = type ∨ type = SHT_NULL then
        ref
      else
        getSectionRetry o fuel name type
    | none => getSectionRetry o fuel name type
termination_by (fuel, 0)

/-- The fall-through retries of `Object::getSection` (`.z` substitution for a
`.debug_` name, then `.dwo` suffix), reached both when the exact lookup
misses and when it finds a section of the wrong type. -/
def getSectionRetry (o : Object) (fuel : Nat) (name : List Char) (type : Nat) : Section :=
  let zresult :=
    if strStarts ".debug_".data name then
      getSectionAux o fuel (".z".data ++ name.drop 1) type
    else
      nullSection
  if sectionTruthy zresult then
    zresult
  else if ¬ strEnds ".dwo".data name then
    getSectionAux o fuel (name ++ ".dwo".data) type
  else
    o.sectionHeaders.getD 0 nullSection
termination_by (fuel, 1)

end

/-- `Object::getSection(name, type)`. -/
def Object.getSection (o : Object) (name : List Char) (type : Nat) : Section :=
  getSectionAux o 4 name type

/-- The `findSym` lambda of `Object::findSymbolByAddress`, one symbol table
at a time.  The captured mutable state `(sym, name, haveExactZeroSizeMatch)`
is passed and returned explicitly.  A `true` return (covering match) carries
the matched pair; a `false` return carries the table's final state, in which
the trailing `sym.st_shndx = SHN_UNDEF` assignment has overwritten the
section index of any recorded zero-size fallback. -/
def findSymScan (secs : List Section) (addr ty : Nat) :
    List (Sym × List Char) → Sym × List Char × Bool → Option (Sym × List Char) × (Sym × List Char × Bool)
  | [], st => (none, ({ st.1 with st_shndx := SHN_UNDEF }, st.2.1, st.2.2))
  | c :: rest, st =>
    let cand := c.1
    if secs.length ≤ cand.st_shndx then
      findSymScan secs addr ty rest st
    else if ty ≠ STT_NOTYPE ∧ ELF_ST_TYPE cand.st_info ≠ ty then
      findSymScan secs addr ty rest st
    else if addr < cand.st_value then
      findSymScan secs addr ty rest st
    else if (cand.st_size + cand.st_value) % addrMod ≤ addr then
      if cand.st_size = 0 ∧ cand.st_value = addr then
        findSymScan secs addr ty rest (cand, c.2, true)
      else
        findSymScan secs addr ty rest st
    else if (secs.getD cand.st_shndx nullSection).shdr.sh_flags &&& SHF_ALLOC = 0 then
      findSymScan secs addr ty rest st
    else
      (some (cand, c.2), (cand, c.2, st.2.2))

/-- `Object::findSymbolByAddress(addr, type)`: scan `.symtab`, then
`.dynsym`, then recurse into the nested `.gnu_debugdata` image, and finally
fall back to a recorded zero-size exact match.  The code materializes the
`debugData` slot from the `.gnu_debugdata` section on first use (an LZMA
ELF); the model's `debugData` field is that slot's settled value.  The local
`Sym sym; std::string name;` start default-initialized and are never
returned before being assigned. -/
def Object.findSymbolByAddress : Object → Nat → Nat → Option (Sym × List Char)
  | .mk secs _ _ symtab dynsym _ _ dd, addr, ty =>
    let st0 : Sym × List Char × Bool := (undef, [], false)
    match findSymScan secs addr ty symtab st0 with
    | (some r, _) => some r
    | (none, st1) =>
      match findSymScan secs addr ty dynsym st1 with
      | (some r, _) => some r
      | (none, st2) =>
        let fallback := if st2.2.2 then some (st2.1, st2.2.1) else none
        match dd with
        | some d =>
          match d.findSymbolByAddress addr ty with
          | some r => some r
          | none => fallback
        | none => fallback

/-- `Object::findDynamicSymbol(name)`: GNU hash preferred, SysV fallback,
`(undef, 0)` when neither accelerator exists or the index came back 0. -/
def Object.findDynamicSymbol (o : Object) (name : List Char) : Sym × Nat :=
  let r : Nat × Sym :=
    match o.gnuHash with
    | some g => g.findSymbol name
    | none =>
      match o.sysvHash with
      | some h => h.findSymbol name
      | none => (0, undef)
  if r.1 = 0 then (undef, 0) else (r.2, r.1)

/-! ## Notes iteration (`Notes::iterator`) -/

/-- An ELF note header (`Nhdr`): three 32-bit words. -/
structure Nhdr where
  n_namesz : Nat
  n_descsz : Nat
  n_type : Nat
  deriving Repr, DecidableEq

/-- `sizeof (Nhdr)`: three 32-bit words. -/
def sizeofNhdr : Nat := 12

/-- Modelled from the spec: `roundup2(v, a)` (defined in the `libpstack`
headers, outside `src/`) rounds `v` up to the next multiple of `a`
("align up to 4" in the spec's advancement rule; `a` is always 4 here). -/
def roundup2 (v a : Nat) : Nat := ((v + a - 1) / a) * a

/-- One advancement step of `Notes::iterator::operator++` starting from the
note header `cur` at offset `off`:
`newOff = off + sizeof curNote + n_namesz`, round up to 4, `+= n_descsz`,
round up to 4. -/
def noteStep (cur : Nhdr) (off : Nat) : Nat :=
  roundup2 (roundup2 (off + sizeofNhdr + cur.n_namesz) 4 + cur.n_descsz) 4

/-- One `PT_NOTE` segment as the iterator sees it: the byte view
`io->view(p_offset, p_filesz)` abstracted as its length `filesz` plus the
typed read `noteAt off` (the `Nhdr` that `readNote` decodes at `off`). -/
structure NoteSeg where
  filesz : Nat
  noteAt : Nat → Nhdr

/-- Rounding up to 4 never decreases a value. -/
theorem roundup2_four_ge (v : Nat) : v ≤ roundup2 v 4 := by
  have h := Nat.div_add_mod (v + 3) 4
  have h2 : (v + 3) % 4 < 4 := Nat.mod_lt _ (by omega)
  simp only [roundup2]
  omega

/-- A note-advancement step strictly increases the offset. -/
theorem noteStep_gt (cur : Nhdr) (off : Nat) : off < noteStep cur off := by
  have h1 := roundup2_four_ge (off + sizeofNhdr + cur.n_namesz)
  have h2 := roundup2_four_ge (roundup2 (off + sizeofNhdr + cur.n_namesz) 4 + cur.n_descsz)
  simp only [noteStep, sizeofNhdr] at *
  omega

/-- The notes the iterator yields inside one segment, starting at `off`:
read the current header, advance, and stop once the new offset reaches or
passes `p_filesz` (`if (newOff >= phdrsi->p_filesz)`). -/
def visitFrom (s : NoteSeg) (off : Nat) : List Nhdr :=
  if _h : noteStep (s.noteAt off) off < s.filesz then
    s.noteAt off :: visitFrom s (noteStep (s.noteAt off) off)
  else
    [s.noteAt off]
termination_by s.filesz - off
decreasing_by
  have := noteStep_gt (s.noteAt off) off
  omega

/-- The full `begin()`-to-`end()` traversal: on segment exhaustion
`operator++` moves to the next `PT_NOTE` segment and restarts at offset 0
(`startSection`); `begin()` starts the first segment at offset 0; an empty
segment list is already `end()`. -/
def visitAll : List NoteSeg → List Nhdr
  | [] => []
  | s :: rest => visitFrom s 0 ++ visitAll rest

/-- `NoteDesc::data()`: a view starting at `sizeof note + roundup2(n_namesz, 4)`
of length `n_descsz`, modelled as that (start, length) pair. -/
def noteDataView (note : Nhdr) : Nat × Nat :=
  (sizeofNhdr + roundup2 note.n_namesz 4, note.n_descsz)

/-! ## Companion debug discovery (`Object::getDebug`) -/

/-- The mutable companion-lookup state of an `Object`: the `debugLoaded`
latch and the `debugObject` slot.  The constructor initializes
`debugLoaded(isDebug)` so that a debug image never attempts a companion
lookup of its own. -/
structure DebugState where
  debugLoaded : Bool
  debugObject : Option Object

/-- The state `Object::Object(context, io, isDebug)` leaves behind. -/
def DebugState.init (isDebug : Bool) : DebugState :=
  { debugLoaded := isDebug, debugObject := none }

/-- `sh_addr += diff` over every section header of the companion
(64-bit wrap). -/
def adjustSection (diff : Nat) (s : Section) : Section :=
  { s with shdr := { s.shdr with sh_addr := (s.shdr.sh_addr + diff) % addrMod } }

/-- `p_vaddr += diff` over a program header (64-bit wrap). -/
def adjustPhdr (diff : Nat) (p : Phdr) : Phdr :=
  { p with p_vaddr := (p.p_vaddr + diff) % addrMod }

/-- The prelink adjustment loops of `Object::getDebug`: every section header
of the companion gets `sh_addr += diff`, and every program header of every
type group gets `p_vaddr += diff`. -/
def adjustDebugObject (diff : Nat) : Object → Object
  | .mk secs named phdrs symtab dynsym g h dd =>
    .mk (secs.map (adjustSection diff)) named
      (phdrs.map (fun grp => (grp.1, grp.2.map (adjustPhdr diff))))
      symtab dynsym g h dd

/-- The prelink check at the end of `Object::getDebug` (lines 692-713):
compare the primary's and the companion's `.dynamic` `sh_addr` and, when
they differ *and a debug log sink is present* (the code's condition is
`d.shdr.sh_addr != s.shdr.sh_addr && context.debug`), shift every companion
section header and program header by the unsigned 64-bit difference
`s.sh_addr - d.sh_addr`. -/
def prelinkAdjust (primary dbg : Object) (debugSink : Bool) : Object :=
  let s := primary.getSection ".dynamic".data SHT_NULL
  let d := dbg.getSection ".dynamic".data SHT_NULL
  if d.shdr.sh_addr ≠ s.shdr.sh_addr ∧ debugSink then
    adjustDebugObject ((s.shdr.sh_addr + addrMod - d.shdr.sh_addr) % addrMod) dbg
  else
    dbg

/-- `Object::getDebug()` as a state transition.  The filesystem outcomes of
the discovery steps are parameters: `byName` is the companion the
debug-directory `<dir>/<basename>.debug` scan would load (the code returns
it as soon as the load succeeds, before the prelink check), and `byIdOrLink`
is the companion the build-id / `.gnu_debuglink` / debuginfod steps would
produce (their relative order does not affect the claims).  `noExtDebug` is
`context.options.noExtDebug`; `debugSink` is whether `context.debug` is a
non-null log sink — the code tests it as part of the prelink condition
`d.shdr.sh_addr != s.shdr.sh_addr && context.debug`.  The unsigned 64-bit
difference `s.sh_addr - d.sh_addr` is `(s + 2^64 - d) % 2^64`. -/
def getDebug (primary : Object) (noExtDebug debugSink : Bool)
    (byName byIdOrLink : Option Object) (st : DebugState) :
    Option Object × DebugState :=
  if st.debugLoaded ∨ noExtDebug then
    (st.debugObject, st)
  else
    match byName with
    | some dbg => (some dbg, { debugLoaded := true, debugObject := some dbg })
    | none =>
      match byIdOrLink with
      | none => (none, { debugLoaded := true, debugObject := none })
      | some dbg =>
        let adjusted := prelinkAdjust primary dbg debugSink
        (some adjusted, { debugLoaded := true, debugObject := some adjusted })

/-! ## Specification-side predicates used by the theorems -/

/-- The exact-lookup step of `Object::getSection`: the named section when the
name is mapped and its type matches the request (`SHT_NULL` requests match
any type); `none` when the name is unmapped or the type differs. -/
def exactMatch (o : Object) (name : List Char) (type : Nat) : Option Section :=
  match o.namedSection.lookup name with
  | none => none
  | some idx =>
    let ref := o.sectionHeaders.getD idx nullSection
    if ref.shdr.sh_type = type ∨ type = SHT_NULL then some ref else none

/-- The `.z` substitution of `Object::getSection`:
`std::string(".z") + name.substr(1)`. -/
def zSub (name : List Char) : List Char := ".z".data ++ name.drop 1

/-- A candidate `findSymbolByAddress` accepts as a covering match: in-bounds
section index, type filter passed, `st_value <= addr < st_value + st_size`
(64-bit sum), and the enclosing section has `SHF_ALLOC`. -/
def covering (secs : List Section) (addr ty : Nat) (c : Sym) : Prop :=
  c.st_shndx < secs.length ∧
  (ty = STT_NOTYPE ∨ ELF_ST_TYPE c.st_info = ty) ∧
  c.st_value ≤ addr ∧
  addr < (c.st_size + c.st_value) % addrMod ∧
  (secs.getD c.st_shndx nullSection).shdr.sh_flags &&& SHF_ALLOC ≠ 0

instance (secs : List Section) (addr ty : Nat) (c : Sym) :
    Decidable (covering secs addr ty c) := by
  unfold covering; infer_instance

/-- A candidate `findSymbolByAddress` records as the zero-size exact-match
fallback: in-bounds section index, type filter passed, not above `addr`,
`st_size + st_value <= addr`, and `st_size == 0 && st_value == addr`.  No
`SHF_ALLOC` requirement on this path. -/
def zeroRecord (secs : List Section) (addr ty : Nat) (c : Sym) : Prop :=
  c.st_shndx < secs.length ∧
  (ty = STT_NOTYPE ∨ ELF_ST_TYPE c.st_info = ty) ∧
  c.st_value ≤ addr ∧
  (c.st_size + c.st_value) % addrMod ≤ addr ∧
  c.st_size = 0 ∧ c.st_value = addr

instance (secs : List Section) (addr ty : Nat) (c : Sym) :
    Decidable (zeroRecord secs addr ty c) := by
  unfold zeroRecord; infer_instance

/-- A segment covers an address: `p_vaddr <= a < p_vaddr + p_memsz`
(exact arithmetic; the theorems carry a no-overflow hypothesis to identify
this with the code's 64-bit test). -/
def covers (seg : Phdr) (a : Nat) : Prop :=
  seg.p_vaddr ≤ a ∧ a < seg.p_vaddr + seg.p_memsz

instance (seg : Phdr) (a : Nat) : Decidable (covers seg a) := by
  unfold covers; infer_instance

/-- The scan state `findSym` leaves behind when it returns `false`: the last
zero-size exact match recorded across the scanned tables (with its
`st_shndx` overwritten by the trailing `sym.st_shndx = SHN_UNDEF`
assignment), or the clobbered incoming state when none was recorded. -/
def scanFallback (st : Sym × List Char × Bool) (zs : List (Sym × List Char)) :
    Sym × List Char × Bool :=
  match zs.getLast? with
  | some z => ({ z.1 with st_shndx := SHN_UNDEF }, z.2, true)
  | none => ({ st.1 with st_shndx := SHN_UNDEF }, st.2.1, st.2.2)

/-- Well-formedness of a GNU hash table over its symbol view, as the standard
`.gnu_hash` layout guarantees: hashed symbols start at `symoffset` and are
grouped by ascending bucket; `chain` holds each hashed symbol's hash with the
low bit marking the last symbol of its bucket; `buckets` maps a non-empty
bucket to its first symbol index (and anything below `symoffset` otherwise);
every hashed symbol's hash is set in its Bloom word. -/
structure GnuWF (g : GnuHash) : Prop where
  nbuckets_pos : 0 < g.header.nbuckets
  bloom_pos : 0 < g.header.bloom_size
  symoffset_pos : 0 < g.header.symoffset
  chain_size : g.header.symoffset + g.chain.length = g.syms.length
  chain_hash : ∀ i < g.syms.length, g.header.symoffset ≤ i →
    (g.chain.getD (i - g.header.symoffset) 0 ||| 1) = (gnu_hash (g.nameAt i) ||| 1)
  buckets_sorted : ∀ i < g.syms.length, ∀ j < g.syms.length,
    g.header.symoffset ≤ i → i ≤ j → g.bucketOf i ≤ g.bucketOf j
  chain_end : ∀ i < g.syms.length, g.header.symoffset ≤ i →
    (g.chain.getD (i - g.header.symoffset) 0 &&& 1 ≠ 0 ↔
      (i + 1 = g.syms.length ∨ (i + 1 < g.syms.length ∧ g.bucketOf (i + 1) ≠ g.bucketOf i)))
  bucket_covers : ∀ i < g.syms.length, g.header.symoffset ≤ i →
    (g.header.symoffset ≤ g.buckets.getD (g.bucketOf i) 0 ∧
     g.buckets.getD (g.bucketOf i) 0 ≤ i ∧
     g.bucketOf (g.buckets.getD (g.bucketOf i) 0) = g.bucketOf i)
  bucket_sound : ∀ b < g.header.nbuckets,
    g.buckets.getD b 0 < g.header.symoffset ∨
    (g.header.symoffset ≤ g.buckets.getD b 0 ∧ g.buckets.getD b 0 < g.syms.length ∧
     g.bucketOf (g.buckets.getD b 0) = b)
  bloom_ok : ∀ i < g.syms.length, g.header.symoffset ≤ i →
    g.bloom.getD ((gnu_hash (g.nameAt i) / ELF_BITS) % g.header.bloom_size) 0 &&&
      gnuBloomMask g.header.bloom_shift (gnu_hash (g.nameAt i)) =
      gnuBloomMask g.header.bloom_shift (gnu_hash (g.nameAt i))

/-- Name `n` occurs in the hashed region of the table's symbol view. -/
def GnuHash.hasName (g : GnuHash) (n : List Char) : Prop :=
  ∃ i, g.header.symoffset ≤ i ∧ i < g.syms.length ∧ g.nameAt i = n

/-- Name `n` occurs nowhere in the table's symbol view. -/
def GnuHash.lacksName (g : GnuHash) (n : List Char) : Prop :=
  ∀ i < g.syms.length, g.nameAt i ≠ n

/-- The index sequence of a SysV chain walk from `i`, cut by `fuel`:
`i, chains[i], chains[chains[i]], ...` until `STN_UNDEF`. -/
def sysvChainSeq (h : SymHash) : Nat → Nat → List Nat
  | _, 0 => []
  | i, fuel + 1 =>
    if i = STN_UNDEF then [] else i :: sysvChainSeq h (h.chains.getD i 0) fuel

/-- Well-formedness of a SysV hash table over its symbol view: `nchain`
counts the symbols; every chain stays inside the symbol table and reaches
`STN_UNDEF` within `nchain` steps; every symbol (other than index 0, the
terminator value) is on the chain of its name's bucket. -/
structure SysvWF (h : SymHash) : Prop where
  nbucket_pos : 0 < h.nbucket
  nchain_syms : h.nchain = h.syms.length
  chain_inrange : ∀ b < h.nbucket,
    ∀ i ∈ sysvChainSeq h (h.buckets.getD b 0) (h.nchain + 1), i < h.syms.length
  chain_short : ∀ b < h.nbucket,
    (sysvChainSeq h (h.buckets.getD b 0) (h.nchain + 1)).length ≤ h.nchain
  reach : ∀ i < h.syms.length, 0 < i →
    i ∈ sysvChainSeq h (h.buckets.getD (elf_hash (h.nameAt i) % h.nbucket) 0) (h.nchain + 1)

/-- Name `n` occurs in the table's symbol view at a nonzero index. -/
def SymHash.hasName (h : SymHash) (n : List Char) : Nat → Prop :=
  fun i => 0 < i ∧ i < h.syms.length ∧ h.nameAt i = n

/-- Name `n` occurs nowhere in the table's symbol view. -/
def SymHash.lacksName (h : SymHash) (n : List Char) : Prop :=
  ∀ i < h.syms.length, h.nameAt i ≠ n

/-- The note layout of one `PT_NOTE` segment: the headers in `notes` lie at
the offsets the iterator's advancement rule produces, each intermediate
offset is strictly inside the segment, and the offset past the last note
reaches or passes `p_filesz`. -/
def layoutFrom (s : NoteSeg) : Nat → List Nhdr → Prop
  | off, [] => s.filesz ≤ off
  | off, n :: rest => off < s.filesz ∧ s.noteAt off = n ∧ layoutFrom s (noteStep n off) rest

instance layoutFromDec (s : NoteSeg) : (off : Nat) → (ns : List Nhdr) → Decidable (layoutFrom s off ns)
  | off, [] => decidable_of_iff (s.filesz ≤ off) Iff.rfl
  | off, n :: rest =>
    haveI := layoutFromDec s (noteStep n off) rest
    decidable_of_iff (off < s.filesz ∧ s.noteAt off = n ∧ layoutFrom s (noteStep n off) rest)
      Iff.rfl

/-- A one-symbol well-formed GNU hash table over a `.dynsym` view holding
`"f"` at index 1 (index 0 is the undefined symbol), used by witnesses. -/
def gnuSample : GnuHash :=
  { header := { nbuckets := 1, symoffset := 1, bloom_size := 1, bloom_shift := 0 },
    bloom := [2 ^ 64 - 1],
    buckets := [1],
    chain := [gnu_hash "f".data ||| 1],
    syms := [undef, { st_name := 1, st_value := 4096, st_size := 8, st_info := 18, st_shndx := 1 }],
    strings := fun off => if off = 1 then "f".data else [] }

/-- A GNU hash table whose zeroed Bloom word rejects every query, used by
witnesses. -/
def gnuRejectSample : GnuHash :=
  { header := { nbuckets := 1, symoffset := 1, bloom_size := 1, bloom_shift := 0 },
    bloom := [0],
    buckets := [1],
    chain := [gnu_hash "f".data ||| 1],
    syms := [undef, { st_name := 1, st_value := 4096, st_size := 8, st_info := 18, st_shndx := 1 }],
    strings := fun off => if off = 1 then "f".data else [] }

/-- A one-symbol well-formed SysV hash table over the same `.dynsym` view,
used by witnesses. -/
def sysvSample : SymHash :=
  { nbucket := 1,
    nchain := 2,
    buckets := [1],
    chains := [0, 0],
    syms := [undef, { st_name := 1, st_value := 4096, st_size := 8, st_info := 18, st_shndx := 1 }],
    strings := fun off => if off = 1 then "f".data else [] }

/-! ## Shared helper lemmas -/

/-- In a `Pairwise`-ordered list every member is the last element or related
to it. -/
theorem rel_getLast {α : Type} {r : α → α → Prop} (l : List α) (last : α)
    (hl : l.getLast? = some last) (hp : l.Pairwise r) :
    ∀ s ∈ l, s = last ∨ r s last := by
  obtain ⟨ys, rfl⟩ := List.getLast?_eq_some_iff.1 hl
  rw [List.pairwise_append] at hp
  intro s hs
  rcases List.mem_append.1 hs with h | h
  · exact Or.inr (hp.2.2 s h last (by simp))
  · exact Or.inl (by simpa using h)

/-- `n &&& 0x7fff` is reduction modulo `2 ^ 15`. -/
theorem and_mask15 (n : Nat) : n &&& 0x7fff = n % 2 ^ 15 := by
  have h : (0x7fff : Nat) = 2 ^ 15 - 1 := by norm_num
  rw [h]
  exact Nat.and_pow_two_sub_one_eq_mod n 15

/-! ## C8: version-index decoding -/

/-- C8: `symbolVersion(idx)` decodes the 16-bit version index by masking off
bit 15 (the hidden flag — the result only depends on the low 15 bits); a
masked index of 0 or 1 is absent (`ok none`); otherwise the result is the
version name recorded at that index in the version table built from
`.gnu.version_r` and `.gnu.version_d`. -/
theorem symbolVersion_decode (vi : SymbolVersioning) (idx : Nat) :
    symbolVersion vi idx = symbolVersion vi (idx % 2 ^ 15) ∧
    ((idx &&& 0x7fff = 0 ∨ idx &&& 0x7fff = 1) → symbolVersion vi idx = .ok none) ∧
    (∀ name, vi.versions.lookup (idx &&& 0x7fff) = some name → 2 ≤ idx &&& 0x7fff →
      symbolVersion vi idx = .ok (some name)) := by
  have hmm : idx % 2 ^ 15 % 2 ^ 15 = idx % 2 ^ 15 := Nat.mod_mod_of_dvd idx dvd_rfl
  refine ⟨?_, ?_, ?_⟩
  · simp only [symbolVersion, and_mask15, hmm]
  · intro h
    rcases h with h | h <;>
      simp only [symbolVersion, h] <;> norm_num
  · intro name hlook hge
    simp only [symbolVersion, if_pos hge, hlook]

/-- Witness for C8 at a concrete hidden-flag index: `0x8002` (bit 15 set,
low 15 bits 2) resolves to the name recorded at index 2. -/
theorem symbolVersion_decode_witness :
    symbolVersion { versions := [(2, "GLIBC_2.2.5")] } 32770 = .ok (some "GLIBC_2.2.5") :=
  (symbolVersion_decode { versions := [(2, "GLIBC_2.2.5")] } 32770).2.2
    "GLIBC_2.2.5" (by decide) (by decide)

/-! ## C10: endVA -/

/-- C10: `endVA()` requires at least one `PT_LOAD` program header: with the
group present (non-empty and sorted by the constructor), it returns
`p_vaddr + p_memsz` of the group's last element, the segment with the
greatest `p_vaddr`; without the group, the `programHeaders.at(PT_LOAD)`
lookup fails (the out-of-range error branch) instead of returning a value. -/
theorem endVA_spec (o : Object) :
    (o.programHeaders.lookup PT_LOAD = none → o.endVA = .error ()) ∧
    (∀ l last, o.programHeaders.lookup PT_LOAD = some l → l.getLast? = some last →
      l.Pairwise (fun x y => x.p_vaddr ≤ y.p_vaddr) →
      o.endVA = .ok ((last.p_vaddr + last.p_memsz) % addrMod) ∧
      ∀ s ∈ l, s.p_vaddr ≤ last.p_vaddr) := by
  constructor
  · intro h
    simp only [Object.endVA, h]
  · intro l last hl hlast hp
    constructor
    · simp only [Object.endVA, hl, hlast]
    · intro s hs
      rcases rel_getLast l last hlast hp s hs with h | h
      · exact h ▸ le_refl _
      · exact h

/-- Witness for C10 on a two-segment image: `endVA` is the end of the
higher segment. -/
theorem endVA_spec_witness :
    (Object.mk [] [] [(PT_LOAD, [{ p_type := 1, p_vaddr := 4096, p_memsz := 8192 },
        { p_type := 1, p_vaddr := 16384, p_memsz := 4096 }])] [] [] none none none).endVA
      = .ok 20480 :=
  ((endVA_spec _).2
    [{ p_type := 1, p_vaddr := 4096, p_memsz := 8192 },
     { p_type := 1, p_vaddr := 16384, p_memsz := 4096 }]
    { p_type := 1, p_vaddr := 16384, p_memsz := 4096 }
    (by decide) (by decide) (by decide)).1

/-! ## C3: getSegmentForAddress -/

/-- Disjoint sorted `PT_LOAD` segments cover an address at most once. -/
theorem covering_unique (l : List Phdr) (a : Nat)
    (hp : l.Pairwise (fun x y => x.p_vaddr + x.p_memsz ≤ y.p_vaddr)) :
    ∀ s1 ∈ l, ∀ s2 ∈ l, covers s1 a → covers s2 a → s1 = s2 := by
  induction l with
  | nil => simp
  | cons x t ih =>
    rw [List.pairwise_cons] at hp
    intro s1 h1 s2 h2 hc1 hc2
    rcases List.mem_cons.1 h1 with e1 | m1 <;> rcases List.mem_cons.1 h2 with e2 | m2
    · exact e1.trans e2.symm
    · exact absurd (lt_of_lt_of_le (e1 ▸ hc1.2) (le_trans (hp.1 s2 m2) hc2.1))
        (lt_irrefl a)
    · exact absurd (lt_of_lt_of_le (e2 ▸ hc2.2) (le_trans (hp.1 s1 m1) hc1.1))
        (lt_irrefl a)
    · exact ih hp.2 s1 m1 s2 m2 hc1 hc2

/-- `std::lower_bound` over a disjoint sorted segment list locates the
covering segment. -/
theorem lowerBoundEnd_covering (l : List Phdr) (a : Nat)
    (hp : l.Pairwise (fun x y => x.p_vaddr + x.p_memsz ≤ y.p_vaddr))
    (hnov : ∀ h ∈ l, h.p_vaddr + h.p_memsz < addrMod) :
    ∀ seg ∈ l, covers seg a → lowerBoundEnd l a = some seg := by
  induction l with
  | nil => simp
  | cons x t ih =>
    rw [List.pairwise_cons] at hp
    intro seg hseg hc
    rcases List.mem_cons.1 hseg with e | m
    · subst e
      have hend : phdrEnd seg = seg.p_vaddr + seg.p_memsz :=
        Nat.mod_eq_of_lt (hnov seg (List.mem_cons_self _ _))
      exact List.find?_cons_of_pos _ (by simp [hend]; exact hc.2)
    · have hxend : phdrEnd x ≤ a := by
        have h1 : x.p_vaddr + x.p_memsz ≤ seg.p_vaddr := hp.1 seg m
        have h2 : phdrEnd x ≤ x.p_vaddr + x.p_memsz := Nat.mod_le _ _
        have h3 : seg.p_vaddr ≤ a := hc.1
        omega
      rw [lowerBoundEnd, List.find?_cons_of_neg _ (by simp; omega)]
      exact ih hp.2 (fun h hm => hnov h (List.mem_cons_of_mem _ hm)) seg m hc


/-- C3: with the `PT_LOAD` group sorted and disjoint (as the constructor
lays it out), the one-slot cache holding a previous hit (or empty), and no
64-bit overflow in the segment ends: every address inside some `PT_LOAD`
segment resolves to that segment — whether served from the cache or by the
binary search — and every address covered by no `PT_LOAD` segment (in
particular any address at or past `endVA()`) resolves to null. -/
theorem getSegmentForAddress_spec (o : Object) (cache : Option Phdr) (a : Nat)
    (hp : (o.getSegments PT_LOAD).Pairwise (fun x y => x.p_vaddr + x.p_memsz ≤ y.p_vaddr))
    (hnov : ∀ h ∈ o.getSegments PT_LOAD, h.p_vaddr + h.p_memsz < addrMod)
    (hcache : ∀ c, cache = some c → c ∈ o.getSegments PT_LOAD) :
    (∀ seg ∈ o.getSegments PT_LOAD, covers seg a →
      (o.getSegmentForAddress cache a).1 = some seg) ∧
    ((∀ seg ∈ o.getSegments PT_LOAD, ¬ covers seg a) →
      (o.getSegmentForAddress cache a).1 = none) ∧
    (∀ e, o.endVA = .ok e → e ≤ a → (o.getSegmentForAddress cache a).1 = none) := by
  have hsearch_hit : ∀ seg ∈ o.getSegments PT_LOAD, covers seg a →
      (o.segmentSearch cache a).1 = some seg := by
    intro seg hseg hc
    have hfind := lowerBoundEnd_covering _ a hp hnov seg hseg hc
    simp only [Object.segmentSearch, hfind, if_pos hc.1]
  have hsearch_miss : (∀ seg ∈ o.getSegments PT_LOAD, ¬ covers seg a) →
      (o.segmentSearch cache a).1 = none := by
    intro hnone
    simp only [Object.segmentSearch]
    cases hfind : lowerBoundEnd (o.getSegments PT_LOAD) a with
    | none => simp
    | some pos =>
      have hmem : pos ∈ o.getSegments PT_LOAD := List.mem_of_find?_eq_some hfind
      have hpred : a < phdrEnd pos := by
        have := List.find?_some hfind
        simpa using this
      have hend : phdrEnd pos = pos.p_vaddr + pos.p_memsz := Nat.mod_eq_of_lt (hnov pos hmem)
      have hnle : ¬ pos.p_vaddr ≤ a := by
        intro hle
        exact hnone pos hmem ⟨hle, by omega⟩
      simp [hnle]
  have hmain1 : ∀ seg ∈ o.getSegments PT_LOAD, covers seg a →
      (o.getSegmentForAddress cache a).1 = some seg := by
    intro seg hseg hc
    rcases cache with _ | last
    · simpa [Object.getSegmentForAddress] using hsearch_hit seg hseg hc
    · simp only [Object.getSegmentForAddress]
      by_cases hhit : last.p_vaddr ≤ a ∧ a < phdrEnd last
      · have hlmem : last ∈ o.getSegments PT_LOAD := hcache last rfl
        have hlend : phdrEnd last = last.p_vaddr + last.p_memsz :=
          Nat.mod_eq_of_lt (hnov last hlmem)
        have hlc : covers last a := ⟨hhit.1, by omega⟩
        have heq := covering_unique _ a hp last hlmem seg hseg hlc hc
        subst heq
        rw [if_pos hhit]
      · simpa [hhit] using hsearch_hit seg hseg hc
  have hmain2 : (∀ seg ∈ o.getSegments PT_LOAD, ¬ covers seg a) →
      (o.getSegmentForAddress cache a).1 = none := by
    intro hnone
    rcases cache with _ | last
    · simpa [Object.getSegmentForAddress] using hsearch_miss hnone
    · simp only [Object.getSegmentForAddress]
      by_cases hhit : last.p_vaddr ≤ a ∧ a < phdrEnd last
      · have hlmem : last ∈ o.getSegments PT_LOAD := hcache last rfl
        have hlend : phdrEnd last = last.p_vaddr + last.p_memsz :=
          Nat.mod_eq_of_lt (hnov last hlmem)
        exact absurd ⟨hhit.1, by omega⟩ (hnone last hlmem)
      · simpa [hhit] using hsearch_miss hnone
  refine ⟨hmain1, hmain2, ?_⟩
  intro e hva hea
  apply hmain2
  rcases hlk : o.programHeaders.lookup PT_LOAD with _ | l
  · intro seg hseg
    simp [Object.getSegments, hlk] at hseg
  · have hsegs : o.getSegments PT_LOAD = l := by simp [Object.getSegments, hlk]
    rcases hlast : l.getLast? with _ | last
    · simp [Object.endVA, hlk, hlast] at hva
    · have hlmem : last ∈ l := List.mem_of_getLast?_eq_some hlast
      have he : e = (last.p_vaddr + last.p_memsz) % addrMod := by
        simp [Object.endVA, hlk, hlast] at hva
        exact hva.symm
      have hend : (last.p_vaddr + last.p_memsz) % addrMod = last.p_vaddr + last.p_memsz :=
        Nat.mod_eq_of_lt (hnov last (hsegs ▸ hlmem))
      intro seg hseg hc
      rcases rel_getLast l last hlast (hsegs ▸ hp) seg (hsegs ▸ hseg) with h | h
      · subst h
        have := hc.2
        omega
      · have h2 := hc.2
        have hsv : seg.p_vaddr + seg.p_memsz ≤ last.p_vaddr := h
        have hca : seg.p_vaddr ≤ a := hc.1
        omega

/-- Witness for C3: a two-segment image, empty cache, an address inside the
second segment and an address in the gap between the segments. -/
theorem getSegmentForAddress_spec_witness :
    ((Object.mk [] [] [(PT_LOAD, [{ p_type := 1, p_vaddr := 4096, p_memsz := 4096 },
        { p_type := 1, p_vaddr := 12288, p_memsz := 4096 }])] [] [] none none
        none).getSegmentForAddress none 13000).1
      = some { p_type := 1, p_vaddr := 12288, p_memsz := 4096 } ∧
    ((Object.mk [] [] [(PT_LOAD, [{ p_type := 1, p_vaddr := 4096, p_memsz := 4096 },
        { p_type := 1, p_vaddr := 12288, p_memsz := 4096 }])] [] [] none none
        none).getSegmentForAddress none 9000).1
      = none := by
  constructor
  · exact (getSegmentForAddress_spec _ none 13000 (by decide) (by decide)
      (by intro c hc; cases hc)).1
      { p_type := 1, p_vaddr := 12288, p_memsz := 4096 } (by decide) (by decide)
  · exact (getSegmentForAddress_spec _ none 9000 (by decide) (by decide)
      (by intro c hc; cases hc)).2.1 (by decide)


/-! ## C5: getSection resolution order -/

/-- A byte string begins with itself plus anything. -/
theorem strStarts_append_self (p t : List Char) : strStarts p (p ++ t) = true := by
  induction p with
  | nil => rfl
  | cons c cs ih => simp [strStarts, ih]

/-- Splitting a prefix test over an append. -/
theorem strStarts_append (t r a : List Char) :
    strStarts t (r ++ a) = (strStarts (t.take r.length) r && strStarts (t.drop r.length) a) := by
  induction t generalizing r with
  | nil => simp [strStarts]
  | cons p ps ih =>
    cases r with
    | nil => simp [strStarts]
    | cons c cs =>
      simp only [List.cons_append, strStarts, List.take_succ_cons, List.drop_succ_cons,
        List.length_cons, List.append_eq]
      rw [ih cs]
      exact (Bool.and_assoc _ _ _).symm

/-- A pattern longer than the string is never its beginning. -/
theorem strStarts_of_longer (t r : List Char) (h : r.length < t.length) :
    strStarts t r = false := by
  induction t generalizing r with
  | nil => simp at h
  | cons p ps ih =>
    cases r with
    | nil => rfl
    | cons c cs =>
      simp only [strStarts]
      rw [ih cs (by simpa using h)]
      exact Bool.and_false _


/-- A `".z"`-substituted name never begins with `".debug_"` (its second byte
is `'z'`). -/
theorem strStarts_dotz (t : List Char) :
    strStarts ".debug_".data ('.' :: 'z' :: t) = false := rfl

/-- Appending `".dwo"` does not affect the `".debug_"` prefix test. -/
theorem strStarts_debug_dwo (x : List Char) :
    strStarts ".debug_".data (x ++ ".dwo".data) = strStarts ".debug_".data x := by
  rw [strStarts_append]
  by_cases h : 7 ≤ x.length
  · rw [List.take_of_length_le (by simpa using h), List.drop_eq_nil_of_le (by simpa using h)]
    simp [strStarts]
  · have hr : strStarts ".debug_".data x = false :=
      strStarts_of_longer _ _ (by simp; omega)
    have hdrop : strStarts (List.drop x.length ".debug_".data) ".dwo".data = false := by
      have h7 : x.length < 7 := by omega
      generalize hk : x.length = k at h7 ⊢
      interval_cases k <;> rfl
    rw [hr, hdrop, Bool.and_false]

/-- Every name extended with `".dwo"` passes the `".dwo"` suffix test. -/
theorem strEnds_append_self (pat x : List Char) :
    strEnds pat (x ++ pat) = true := by
  rw [strEnds, List.reverse_append]
  exact strStarts_append_self _ _

/-- `".z"` substitution commutes with the `".dwo"` extension on a non-empty
name. -/
theorem zSub_append_dwo (c : Char) (t : List Char) :
    zSub ((c :: t) ++ ".dwo".data) = zSub (c :: t) ++ ".dwo".data := by
  simp [zSub]

/-- The statically null section is falsy. -/
theorem sectionTruthy_null : sectionTruthy nullSection = false := rfl


/-- A successful exact lookup is returned as is. -/
theorem getSectionAux_exact (o : Object) (fuel : Nat) (name : List Char) (type : Nat)
    (s : Section) (h : exactMatch o name type = some s) :
    getSectionAux o (fuel + 1) name type = s := by
  cases hl : o.namedSection.lookup name with
  | none =>
    simp only [exactMatch, hl] at h
    cases h
  | some idx =>
    simp only [exactMatch, hl] at h
    by_cases hc : (o.sectionHeaders.getD idx nullSection).shdr.sh_type = type ∨ type = SHT_NULL
    · rw [if_pos hc] at h
      simp only [getSectionAux, hl, if_pos hc]
      exact Option.some.inj h
    · rw [if_neg hc] at h; cases h

/-- A failed exact lookup falls through to the retries. -/
theorem getSectionAux_miss (o : Object) (fuel : Nat) (name : List Char) (type : Nat)
    (h : exactMatch o name type = none) :
    getSectionAux o (fuel + 1) name type = getSectionRetry o fuel name type := by
  cases hl : o.namedSection.lookup name with
  | none => simp only [getSectionAux, hl]
  | some idx =>
    simp only [exactMatch, hl] at h
    by_cases hc : (o.sectionHeaders.getD idx nullSection).shdr.sh_type = type ∨ type = SHT_NULL
    · rw [if_pos hc] at h; cases h
    · simp only [getSectionAux, hl, if_neg hc]



/-- Retry evaluation: a truthy `".z"`-substituted result is returned. -/
theorem getSectionRetry_zHit (o : Object) (fuel : Nat) (name : List Char) (type : Nat)
    (hsw : strStarts ".debug_".data name = true)
    (ht : sectionTruthy (getSectionAux o fuel (".z".data ++ name.drop 1) type) = true) :
    getSectionRetry o fuel name type =
      getSectionAux o fuel (".z".data ++ name.drop 1) type := by
  unfold getSectionRetry
  rw [if_pos hsw, if_pos ht]

/-- Retry evaluation: with the `".z"` branch unavailable or falsy and the
name not ending `".dwo"`, the `".dwo"`-extended lookup is returned. -/
theorem getSectionRetry_dwo (o : Object) (fuel : Nat) (name : List Char) (type : Nat)
    (hzf : strStarts ".debug_".data name = true →
      sectionTruthy (getSectionAux o fuel (".z".data ++ name.drop 1) type) = false)
    (hse : strEnds ".dwo".data name = false) :
    getSectionRetry o fuel name type = getSectionAux o fuel (name ++ ".dwo".data) type := by
  unfold getSectionRetry
  by_cases hsw : strStarts ".debug_".data name = true
  · rw [if_pos hsw, if_neg (by rw [hzf hsw]; exact Bool.false_ne_true),
      if_pos (by rw [hse]; exact Bool.false_ne_true)]
  · rw [if_neg hsw, if_neg (by rw [sectionTruthy_null]; exact Bool.false_ne_true),
      if_pos (by rw [hse]; exact Bool.false_ne_true)]

/-- Retry evaluation: with the `".z"` branch unavailable or falsy and the
name already ending `".dwo"`, the null section at index 0 is returned. -/
theorem getSectionRetry_null (o : Object) (fuel : Nat) (name : List Char) (type : Nat)
    (hzf : strStarts ".debug_".data name = true →
      sectionTruthy (getSectionAux o fuel (".z".data ++ name.drop 1) type) = false)
    (hse : strEnds ".dwo".data name = true) :
    getSectionRetry o fuel name type = o.sectionHeaders.getD 0 nullSection := by
  unfold getSectionRetry
  by_cases hsw : strStarts ".debug_".data name = true
  · rw [if_pos hsw, if_neg (by rw [hzf hsw]; exact Bool.false_ne_true),
      if_neg (by rw [hse]; simp)]
  · rw [if_neg hsw, if_neg (by rw [sectionTruthy_null]; exact Bool.false_ne_true),
      if_neg (by rw [hse]; simp)]


/-- A name with no exact match, no `".debug_"` prefix and a `".dwo"` suffix
resolves to the section at index 0: both retries are unavailable. -/
theorem getSectionAux_deadEnd (o : Object) (fuel : Nat) (name : List Char) (type : Nat)
    (hm : exactMatch o name type = none)
    (hs : strStarts ".debug_".data name = false)
    (he : strEnds ".dwo".data name = true) :
    getSectionAux o (fuel + 1) name type = o.sectionHeaders.getD 0 nullSection := by
  rw [getSectionAux_miss o fuel _ _ hm]
  exact getSectionRetry_null o fuel name type
    (fun hsw => absurd hsw (by rw [hs]; exact Bool.false_ne_true)) he

/-- A fully missing `".z"`-substituted lookup (the `".zdebug_..."` name and
its `".dwo"` extension both unmapped) produces a falsy section, given the
falsy null section at index 0 (constructor invariant I2). -/
theorem getSectionAux_zShape (o : Object) (fuel : Nat) (t : List Char) (type : Nat)
    (h0 : sectionTruthy (o.sectionHeaders.getD 0 nullSection) = false)
    (hz : exactMatch o ('.' :: 'z' :: t) type = none)
    (hzd : exactMatch o (('.' :: 'z' :: t) ++ ".dwo".data) type = none) :
    sectionTruthy (getSectionAux o (fuel + 2) ('.' :: 'z' :: t) type) = false := by
  rw [getSectionAux_miss o (fuel + 1) _ _ hz]
  by_cases he : strEnds ".dwo".data ('.' :: 'z' :: t) = true
  · rw [getSectionRetry_null o (fuel + 1) _ type
      (fun hsw => absurd hsw (by rw [strStarts_dotz]; exact Bool.false_ne_true)) he]
    exact h0
  · have he' : strEnds ".dwo".data ('.' :: 'z' :: t) = false := by
      simpa using he
    rw [getSectionRetry_dwo o (fuel + 1) _ type
      (fun hsw => absurd hsw (by rw [strStarts_dotz]; exact Bool.false_ne_true)) he']
    rw [getSectionAux_deadEnd o fuel _ type hzd
      (by rw [strStarts_debug_dwo]; exact strStarts_dotz t) (strEnds_append_self _ _)]
    exact h0

/-- C5: the `getSection(name, type)` resolution order.  (1) An exact name
match with the requested type (`SHT_NULL` matching any type) is returned;
(2) otherwise a name beginning `".debug_"` retries with the `".z"` prefix
substituted and returns that section when found (non-null); (3) otherwise a
name not already ending `".dwo"` retries with `".dwo"` appended and returns
that lookup's result; (4) when every lookup fails, the null section
(index 0) is returned — never an error (the function is total by type).
Index 0 holding the falsy null section is constructor invariant I2, carried
as hypothesis `h0`. -/
theorem getSection_spec (o : Object) (name : List Char) (type : Nat)
    (h0 : sectionTruthy (o.sectionHeaders.getD 0 nullSection) = false) :
    (∀ s, exactMatch o name type = some s → o.getSection name type = s) ∧
    (exactMatch o name type = none → strStarts ".debug_".data name = true →
      ∀ s, exactMatch o (zSub name) type = some s → sectionTruthy s = true →
        o.getSection name type = s) ∧
    (exactMatch o name type = none →
      (strStarts ".debug_".data name = true →
        exactMatch o (zSub name) type = none ∧
        exactMatch o (zSub name ++ ".dwo".data) type = none) →
      strEnds ".dwo".data name = false →
      ∀ s, exactMatch o (name ++ ".dwo".data) type = some s →
        o.getSection name type = s) ∧
    (exactMatch o name type = none →
      (strStarts ".debug_".data name = true →
        exactMatch o (zSub name) type = none ∧
        exactMatch o (zSub name ++ ".dwo".data) type = none) →
      (strEnds ".dwo".data name = false →
        exactMatch o (name ++ ".dwo".data) type = none) →
      o.getSection name type = o.sectionHeaders.getD 0 nullSection) := by
  refine ⟨?_, ?_, ?_, ?_⟩
  · intro s h
    exact getSectionAux_exact o 3 name type s h
  · intro hm hsw s hz ht
    have hzaux : getSectionAux o 3 (".z".data ++ name.drop 1) type = s :=
      getSectionAux_exact o 2 (".z".data ++ name.drop 1) type s (by exact hz)
    rw [Object.getSection, getSectionAux_miss o 3 name type hm,
      getSectionRetry_zHit o 3 name type hsw (by rw [hzaux]; exact ht), hzaux]
  · intro hm hzfail hse s hd
    have hdaux : getSectionAux o 3 (name ++ ".dwo".data) type = s :=
      getSectionAux_exact o 2 (name ++ ".dwo".data) type s hd
    have hzf : strStarts ".debug_".data name = true →
        sectionTruthy (getSectionAux o 3 (".z".data ++ name.drop 1) type) = false := by
      intro hsw
      obtain ⟨hz1, hz2⟩ := hzfail hsw
      exact getSectionAux_zShape o 1 (name.drop 1) type h0 (by exact hz1) (by exact hz2)
    rw [Object.getSection, getSectionAux_miss o 3 name type hm,
      getSectionRetry_dwo o 3 name type hzf hse, hdaux]
  · intro hm hzfail hdfail
    have hzf : strStarts ".debug_".data name = true →
        sectionTruthy (getSectionAux o 3 (".z".data ++ name.drop 1) type) = false := by
      intro hsw
      obtain ⟨hz1, hz2⟩ := hzfail hsw
      exact getSectionAux_zShape o 1 (name.drop 1) type h0 (by exact hz1) (by exact hz2)
    by_cases hse : strEnds ".dwo".data name = true
    · rw [Object.getSection, getSectionAux_miss o 3 name type hm,
        getSectionRetry_null o 3 name type hzf hse]
    · have hse' : strEnds ".dwo".data name = false := by simpa using hse
      have hd : exactMatch o (name ++ ".dwo".data) type = none := hdfail hse'
      rw [Object.getSection, getSectionAux_miss o 3 name type hm,
        getSectionRetry_dwo o 3 name type hzf hse']
      by_cases hsw : strStarts ".debug_".data name = true
      · cases name with
        | nil => exact absurd (show (false : Bool) = true from hsw) Bool.false_ne_true
        | cons c tl =>
          have hs2 : strStarts ".debug_".data ((c :: tl) ++ ".dwo".data) = true := by
            rw [strStarts_debug_dwo]; exact hsw
          have hzf2 : strStarts ".debug_".data ((c :: tl) ++ ".dwo".data) = true →
              sectionTruthy (getSectionAux o 2
                (".z".data ++ ((c :: tl) ++ ".dwo".data).drop 1) type) = false := by
            intro _
            obtain ⟨hz1, hz2⟩ := hzfail hsw
            have harg : ".z".data ++ ((c :: tl) ++ ".dwo".data).drop 1 =
                zSub (c :: tl) ++ ".dwo".data := zSub_append_dwo c tl
            rw [show (getSectionAux o 2 (".z".data ++ ((c :: tl) ++ ".dwo".data).drop 1) type) =
                getSectionAux o 2 (zSub (c :: tl) ++ ".dwo".data) type from by rw [harg]]
            rw [getSectionAux_deadEnd o 1 (zSub (c :: tl) ++ ".dwo".data) type hz2
              (by rw [strStarts_debug_dwo]; exact strStarts_dotz tl) (strEnds_append_self _ _)]
            exact h0
          rw [getSectionAux_miss o 2 _ type hd,
            getSectionRetry_null o 2 ((c :: tl) ++ ".dwo".data) type hzf2
              (strEnds_append_self _ _)]
      · have hsw' : strStarts ".debug_".data name = false := by simpa using hsw
        exact getSectionAux_deadEnd o 2 (name ++ ".dwo".data) type hd
          (by rw [strStarts_debug_dwo]; exact hsw') (strEnds_append_self _ _)


/-- Witness for C5: an image holding only `".zdebug_info"`; the request for
`".debug_info"` resolves to it through the `".z"` substitution. -/
theorem getSection_spec_witness :
    (Object.mk
        [nullSection,
         { name := ".zdebug_info".data,
           shdr := { sh_type := SHT_PROGBITS, sh_flags := 0, sh_addr := 0 } }]
        [(".zdebug_info".data, 1)] [] [] [] none none none).getSection
        ".debug_info".data SHT_PROGBITS
      = { name := ".zdebug_info".data,
          shdr := { sh_type := SHT_PROGBITS, sh_flags := 0, sh_addr := 0 } } :=
  (getSection_spec _ ".debug_info".data SHT_PROGBITS (by decide)).2.1
    (by decide) (by decide) _ (by decide) (by decide)


/-! ## C7: notes iteration -/

/-- Inside one segment the iterator yields exactly the laid-out notes. -/
theorem visitFrom_layout (s : NoteSeg) :
    ∀ (ns : List Nhdr) (off : Nat) (n : Nhdr),
      layoutFrom s off (n :: ns) → visitFrom s off = n :: ns := by
  intro ns
  induction ns with
  | nil =>
    intro off n h
    obtain ⟨_hoff, hnote, hrest⟩ := h
    rw [visitFrom, hnote]
    rw [dif_neg (by simp only [layoutFrom] at hrest; omega)]
  | cons m rest ih =>
    intro off n h
    obtain ⟨_hoff, hnote, hnext⟩ := h
    have hlt : noteStep n off < s.filesz := hnext.1
    rw [visitFrom, hnote, dif_pos hlt]
    rw [ih (noteStep n off) m hnext]

/-- C7: iterating the notes from `begin()` to `end()` visits exactly the
notes of every `PT_NOTE` segment in file order: within a segment the step
to the next note is `off += sizeof(Nhdr) + n_namesz`, rounded up to a
multiple of 4, then `off += n_descsz`, rounded up to a multiple of 4, and
when the new offset reaches or passes `p_filesz` the iteration moves to the
next `PT_NOTE` segment; each note's `data()` view starts at offset
`sizeof(Nhdr) + align4(n_namesz)` and has length `n_descsz`. -/
theorem notes_iteration_spec (segs : List NoteSeg) (nss : List (List Nhdr))
    (h : List.Forall₂ (fun s ns => ns ≠ [] ∧ layoutFrom s 0 ns) segs nss) :
    visitAll segs = nss.flatten ∧
    ∀ note : Nhdr,
      noteDataView note = (sizeofNhdr + roundup2 note.n_namesz 4, note.n_descsz) := by
  refine ⟨?_, fun note => rfl⟩
  induction h with
  | nil => rfl
  | cons hpair htail ih =>
    obtain ⟨hne, hlay⟩ := hpair
    rename_i s ns segs2 nss2
    cases ns with
    | nil => exact absurd rfl hne
    | cons n rest =>
      simp only [visitAll]
      rw [visitFrom_layout s rest 0 n hlay, ih]
      simp [List.flatten_cons]

/-- Witness for C7: one `PT_NOTE` segment holding two notes with unaligned
name/descriptor sizes; the iterator yields exactly the two headers, and the
second lives at offset 24 as the alignment rule dictates. -/
theorem notes_iteration_spec_witness :
    visitAll [{ filesz := 48,
                noteAt := fun off =>
                  if off = 0 then { n_namesz := 4, n_descsz := 8, n_type := 1 }
                  else if off = 24 then { n_namesz := 5, n_descsz := 3, n_type := 2 }
                  else { n_namesz := 0, n_descsz := 0, n_type := 0 } }]
      = [{ n_namesz := 4, n_descsz := 8, n_type := 1 },
         { n_namesz := 5, n_descsz := 3, n_type := 2 }] :=
  (notes_iteration_spec _ [[{ n_namesz := 4, n_descsz := 8, n_type := 1 },
      { n_namesz := 5, n_descsz := 3, n_type := 2 }]]
    (List.Forall₂.cons ⟨by decide, by decide⟩ List.Forall₂.nil)).1


/-! ## C6: getDebug latch -/

/-- C6: `getDebug()` is idempotent with a single load attempt per Object
(when external debug info is not disabled by `noExtDebug`): the first call
sets the `debugLoaded` latch and performs the companion discovery (its
result is the discovery outcome); any call on a latched state returns the
cached `debugObject` unchanged, without consulting the discovery parameters
— so a later call returns exactly what the first one produced, even if the
filesystem outcomes changed in between, and a failed first attempt is
sticky (absent forever).  An Object constructed with `isDebug = true`
starts latched and never attempts companion lookup. -/
theorem getDebug_latch_spec (primary : Object) :
    (∀ (noExt sink : Bool) (p1 p2 : Option Object) (st : DebugState),
      st.debugLoaded = true →
      getDebug primary noExt sink p1 p2 st = (st.debugObject, st)) ∧
    (∀ (sink : Bool) (p1 p2 : Option Object),
      (getDebug primary false sink p1 p2 (DebugState.init false)).2.debugLoaded = true ∧
      (getDebug primary false sink p1 p2 (DebugState.init false)).2.debugObject =
        (getDebug primary false sink p1 p2 (DebugState.init false)).1) ∧
    (∀ (sink : Bool) (p2 : Option Object) (dbg : Object),
      (getDebug primary false sink (some dbg) p2 (DebugState.init false)).1 = some dbg) ∧
    (∀ (noExt sink sink2 : Bool) (p1 p2 q1 q2 : Option Object),
      getDebug primary noExt sink2 q1 q2
          (getDebug primary false sink p1 p2 (DebugState.init false)).2 =
        ((getDebug primary false sink p1 p2 (DebugState.init false)).1,
         (getDebug primary false sink p1 p2 (DebugState.init false)).2)) ∧
    (∀ (sink : Bool),
      (getDebug primary false sink none none (DebugState.init false)).1 = none) ∧
    (∀ (noExt sink : Bool) (p1 p2 : Option Object),
      getDebug primary noExt sink p1 p2 (DebugState.init true) =
        (none, DebugState.init true)) := by
  have hlatched : ∀ (noExt sink : Bool) (p1 p2 : Option Object) (st : DebugState),
      st.debugLoaded = true →
      getDebug primary noExt sink p1 p2 st = (st.debugObject, st) := by
    intro noExt sink p1 p2 st hst
    rw [getDebug.eq_def, if_pos (Or.inl hst)]
  have hfirst : ∀ (sink : Bool) (p1 p2 : Option Object),
      (getDebug primary false sink p1 p2 (DebugState.init false)).2.debugLoaded = true ∧
      (getDebug primary false sink p1 p2 (DebugState.init false)).2.debugObject =
        (getDebug primary false sink p1 p2 (DebugState.init false)).1 := by
    intro sink p1 p2
    rw [getDebug.eq_def, if_neg (by simp [DebugState.init])]
    cases p1 with
    | some dbg => exact ⟨rfl, rfl⟩
    | none =>
      cases p2 with
      | none => exact ⟨rfl, rfl⟩
      | some dbg => exact ⟨rfl, rfl⟩
  refine ⟨hlatched, hfirst, ?_, ?_, ?_, ?_⟩
  · intro sink p2 dbg
    rw [getDebug.eq_def, if_neg (by simp [DebugState.init])]
  · intro noExt sink sink2 p1 p2 q1 q2
    have h := hfirst sink p1 p2
    rw [hlatched noExt sink2 q1 q2 _ h.1, h.2]
  · intro sink
    rw [getDebug.eq_def, if_neg (by simp [DebugState.init])]
  · intro noExt sink p1 p2
    rw [getDebug.eq_def,
      if_pos (Or.inl (show (DebugState.init true).debugLoaded = true from rfl))]
    rfl

/-- Witness for C6: after a first failed lookup, a second call on the
latched state stays absent even though the companion would now be found,
and an `isDebug` Object never consults the discovery outcomes. -/
theorem getDebug_latch_spec_witness :
    getDebug (Object.mk [] [] [] [] [] none none none) false true
        (some (Object.mk [nullSection] [] [] [] [] none none none)) none
        (getDebug (Object.mk [] [] [] [] [] none none none) false true none none
          (DebugState.init false)).2 =
      (none, { debugLoaded := true, debugObject := none }) ∧
    getDebug (Object.mk [] [] [] [] [] none none none) false true
        (some (Object.mk [nullSection] [] [] [] [] none none none)) none
        (DebugState.init true) =
      (none, DebugState.init true) := by
  constructor
  · have h := (getDebug_latch_spec (Object.mk [] [] [] [] [] none none none)).2.2.2.1
      false true true none none
      (some (Object.mk [nullSection] [] [] [] [] none none none)) none
    rw [h]
    rfl
  · exact (getDebug_latch_spec (Object.mk [] [] [] [] [] none none none)).2.2.2.2.2
      false true (some (Object.mk [nullSection] [] [] [] [] none none none)) none

/-! ## C1: prelink compensation -/

/-- C1, evaluated at the failing input: a companion found by the build-id
path whose `.dynamic` `sh_addr` (2048) differs from the primary's (4096) is
returned entirely unadjusted when `context.debug` is null (`debugSink =
false`), because the adjustment loops sit inside
`if (d.shdr.sh_addr != s.shdr.sh_addr && context.debug)`; and a companion
found by the executable-name path is returned unadjusted even with a debug
sink, because that path returns before the prelink check.  The claim (and
spec invariant I5) requires every companion section and program header to
be moved by the delta in both situations. -/
theorem getDebug_prelink_skipped :
    (getDebug
        (Object.mk [nullSection,
            { name := ".dynamic".data,
              shdr := { sh_type := SHT_DYNAMIC, sh_flags := 0, sh_addr := 4096 } }]
          [(".dynamic".data, 1)] [] [] [] none none none)
        false false none
        (some (Object.mk [nullSection,
            { name := ".dynamic".data,
              shdr := { sh_type := SHT_DYNAMIC, sh_flags := 0, sh_addr := 2048 } }]
          [(".dynamic".data, 1)] [(PT_LOAD, [{ p_type := 1, p_vaddr := 64, p_memsz := 16 }])]
          [] [] none none none))
        (DebugState.init false)).1 =
      some (Object.mk [nullSection,
          { name := ".dynamic".data,
            shdr := { sh_type := SHT_DYNAMIC, sh_flags := 0, sh_addr := 2048 } }]
        [(".dynamic".data, 1)] [(PT_LOAD, [{ p_type := 1, p_vaddr := 64, p_memsz := 16 }])]
        [] [] none none none) ∧
    (getDebug
        (Object.mk [nullSection,
            { name := ".dynamic".data,
              shdr := { sh_type := SHT_DYNAMIC, sh_flags := 0, sh_addr := 4096 } }]
          [(".dynamic".data, 1)] [] [] [] none none none)
        false true
        (some (Object.mk [nullSection,
            { name := ".dynamic".data,
              shdr := { sh_type := SHT_DYNAMIC, sh_flags := 0, sh_addr := 2048 } }]
          [(".dynamic".data, 1)] [(PT_LOAD, [{ p_type := 1, p_vaddr := 64, p_memsz := 16 }])]
          [] [] none none none))
        none
        (DebugState.init false)).1 =
      some (Object.mk [nullSection,
          { name := ".dynamic".data,
            shdr := { sh_type := SHT_DYNAMIC, sh_flags := 0, sh_addr := 2048 } }]
        [(".dynamic".data, 1)] [(PT_LOAD, [{ p_type := 1, p_vaddr := 64, p_memsz := 16 }])]
        [] [] none none none) ∧
    (2048 : Nat) ≠ 4096 := by
  have hnosink : ∀ (p d : Object), prelinkAdjust p d false = d := by
    intro p d
    rw [prelinkAdjust]
    exact if_neg (fun hc => Bool.false_ne_true hc.2)
  refine ⟨?_, ?_, by decide⟩
  · simp [getDebug.eq_def, DebugState.init, hnosink]
  · simp [getDebug.eq_def, DebugState.init]



/-! ## C2: findSymbolByAddress -/

/-- A covering candidate makes the scan return immediately. -/
theorem findSymScan_cons_covering (secs : List Section) (addr ty : Nat)
    (c : Sym × List Char) (rest : List (Sym × List Char)) (st : Sym × List Char × Bool)
    (hc : covering secs addr ty c.1) :
    findSymScan secs addr ty (c :: rest) st = (some (c.1, c.2), (c.1, c.2, st.2.2)) := by
  obtain ⟨h1, h2, h3, h4, h5⟩ := hc
  simp only [findSymScan]
  rw [if_neg (by omega),
    if_neg (by
      intro hx
      rcases h2 with h | h
      · exact hx.1 h
      · exact hx.2 h),
    if_neg (by omega), if_neg (by omega), if_neg h5]

/-- A non-covering candidate is skipped, recording it as the zero-size
fallback exactly when `zeroRecord` holds. -/
theorem findSymScan_cons_skip (secs : List Section) (addr ty : Nat)
    (c : Sym × List Char) (rest : List (Sym × List Char)) (st : Sym × List Char × Bool)
    (hnc : ¬ covering secs addr ty c.1) :
    findSymScan secs addr ty (c :: rest) st =
      findSymScan secs addr ty rest
        (if zeroRecord secs addr ty c.1 then (c.1, c.2, true) else st) := by
  by_cases h1 : secs.length ≤ c.1.st_shndx
  · simp only [findSymScan]
    rw [if_pos h1, if_neg (fun hz => by have := hz.1; omega)]
  · simp only [findSymScan]
    rw [if_neg h1]
    by_cases h2 : ty ≠ STT_NOTYPE ∧ ELF_ST_TYPE c.1.st_info ≠ ty
    · rw [if_pos h2, if_neg (by
        intro hz
        rcases hz.2.1 with h | h
        · exact h2.1 h
        · exact h2.2 h)]
    · rw [if_neg h2]
      have htyok : ty = STT_NOTYPE ∨ ELF_ST_TYPE c.1.st_info = ty := by tauto
      by_cases h3 : addr < c.1.st_value
      · rw [if_pos h3, if_neg (fun hz => by have := hz.2.2.1; omega)]
      · rw [if_neg h3]
        by_cases h4 : (c.1.st_size + c.1.st_value) % addrMod ≤ addr
        · rw [if_pos h4]
          by_cases h5 : c.1.st_size = 0 ∧ c.1.st_value = addr
          · rw [if_pos h5, if_pos ⟨by omega, htyok, by omega, h4, h5.1, h5.2⟩]
          · rw [if_neg h5, if_neg (fun hz => h5 ⟨hz.2.2.2.2.1, hz.2.2.2.2.2⟩)]
        · rw [if_neg h4]
          by_cases h6 : (secs.getD c.1.st_shndx nullSection).shdr.sh_flags &&& SHF_ALLOC = 0
          · rw [if_pos h6, if_neg (fun hz => h4 hz.2.2.2.1)]
          · exact absurd ⟨by omega, htyok, by omega, by omega, h6⟩ hnc

/-- Recording a fresh zero-size fallback then folding further matches is the
same as folding them over the extended list. -/
theorem scanFallback_cons_zero (st : Sym × List Char × Bool) (c : Sym × List Char)
    (zs : List (Sym × List Char)) :
    scanFallback (c.1, c.2, true) zs = scanFallback st (c :: zs) := by
  cases zs with
  | nil => simp [scanFallback]
  | cons d fr =>
    rw [scanFallback, scanFallback, List.getLast?_cons_cons]
    cases hgl : (d :: fr).getLast? with
    | none => exact absurd (List.getLast?_eq_none_iff.1 hgl) (by simp)
    | some z => rfl

/-- When the table holds no covering candidate, the scan returns `false`
and its final state is the recorded fallback. -/
theorem findSymScan_none (secs : List Section) (addr ty : Nat) :
    ∀ (tbl : List (Sym × List Char)) (st : Sym × List Char × Bool),
      (∀ c ∈ tbl, ¬ covering secs addr ty c.1) →
      findSymScan secs addr ty tbl st =
        (none, scanFallback st (tbl.filter (fun c => decide (zeroRecord secs addr ty c.1)))) := by
  intro tbl
  induction tbl with
  | nil =>
    intro st _
    simp only [findSymScan, List.filter_nil, scanFallback, List.getLast?_nil]
  | cons c rest ih =>
    intro st hnone
    rw [findSymScan_cons_skip secs addr ty c rest st (hnone c (List.mem_cons_self _ _)),
      ih _ (fun x hx => hnone x (List.mem_cons_of_mem _ hx))]
    by_cases hz : zeroRecord secs addr ty c.1
    · rw [if_pos hz, List.filter_cons_of_pos (by simpa using hz)]
      exact congrArg (Prod.mk none) (scanFallback_cons_zero st c _)
    · rw [if_neg hz, List.filter_cons_of_neg (by simpa using hz)]

/-- The scan returns the first covering candidate of the table. -/
theorem findSymScan_found (secs : List Section) (addr ty : Nat) :
    ∀ (tbl : List (Sym × List Char)) (st : Sym × List Char × Bool) (p : Sym × List Char),
      tbl.find? (fun c => decide (covering secs addr ty c.1)) = some p →
      (findSymScan secs addr ty tbl st).1 = some p := by
  intro tbl
  induction tbl with
  | nil => intro st p h; cases h
  | cons c rest ih =>
    intro st p h
    by_cases hc : covering secs addr ty c.1
    · rw [List.find?_cons_of_pos _ (by simpa using hc)] at h
      rw [findSymScan_cons_covering secs addr ty c rest st hc]
      exact congrArg some (Option.some.inj h)
    · rw [List.find?_cons_of_neg _ (by simpa using hc)] at h
      rw [findSymScan_cons_skip secs addr ty c rest st hc]
      exact ih _ p h


/-- C2: `findSymbolByAddress(addr, type)` prefers a covering symbol over a
zero-size exact match.  With `F` the covering test (in-bounds `st_shndx`,
type filter, `st_value <= addr < st_value + st_size`, `SHF_ALLOC` enclosing
section) and `Z` the zero-size record test (same but `st_size == 0 &&
st_value == addr`, without the `SHF_ALLOC` requirement): the first covering
candidate of `.symtab`, else of `.dynsym`, is returned; with no covering
candidate the nested `.gnu_debugdata` result is preferred; else the recorded
zero-size fallback (the last `Z`-candidate in scan order, its `st_shndx`
field overwritten with `SHN_UNDEF` by the failed scan's epilogue) is
returned; when none of these exist the result is absent. -/
theorem findSymbolByAddress_spec
    (secs : List Section) (named : List (List Char × Nat)) (phdrs : List (Nat × List Phdr))
    (symtab dynsym : List (Sym × List Char)) (g : Option GnuHash) (hh : Option SymHash)
    (dd : Option Object) (addr ty : Nat) :
    (∀ p, symtab.find? (fun c => decide (covering secs addr ty c.1)) = some p →
      (Object.mk secs named phdrs symtab dynsym g hh dd).findSymbolByAddress addr ty = some p) ∧
    (symtab.find? (fun c => decide (covering secs addr ty c.1)) = none →
      ∀ p, dynsym.find? (fun c => decide (covering secs addr ty c.1)) = some p →
        (Object.mk secs named phdrs symtab dynsym g hh dd).findSymbolByAddress addr ty = some p) ∧
    (symtab.find? (fun c => decide (covering secs addr ty c.1)) = none →
      dynsym.find? (fun c => decide (covering secs addr ty c.1)) = none →
      ∀ d r, dd = some d → d.findSymbolByAddress addr ty = some r →
        (Object.mk secs named phdrs symtab dynsym g hh dd).findSymbolByAddress addr ty = some r) ∧
    (symtab.find? (fun c => decide (covering secs addr ty c.1)) = none →
      dynsym.find? (fun c => decide (covering secs addr ty c.1)) = none →
      (∀ d, dd = some d → d.findSymbolByAddress addr ty = none) →
      ∀ z, ((symtab ++ dynsym).filter
          (fun c => decide (zeroRecord secs addr ty c.1))).getLast? = some z →
        (Object.mk secs named phdrs symtab dynsym g hh dd).findSymbolByAddress addr ty =
          some ({ z.1 with st_shndx := SHN_UNDEF }, z.2)) ∧
    (symtab.find? (fun c => decide (covering secs addr ty c.1)) = none →
      dynsym.find? (fun c => decide (covering secs addr ty c.1)) = none →
      (∀ d, dd = some d → d.findSymbolByAddress addr ty = none) →
      (symtab ++ dynsym).filter (fun c => decide (zeroRecord secs addr ty c.1)) = [] →
      (Object.mk secs named phdrs symtab dynsym g hh dd).findSymbolByAddress addr ty = none) := by
  have hnocov : ∀ (tbl : List (Sym × List Char)),
      tbl.find? (fun c => decide (covering secs addr ty c.1)) = none →
      ∀ c ∈ tbl, ¬ covering secs addr ty c.1 := by
    intro tbl h c hc
    have := List.find?_eq_none.1 h c hc
    simpa using this
  refine ⟨?_, ?_, ?_, ?_, ?_⟩
  · intro p hp
    have hscan := findSymScan_found secs addr ty symtab (undef, ([], false)) p hp
    rcases hpair : findSymScan secs addr ty symtab (undef, ([], false)) with ⟨res, st1⟩
    rw [hpair] at hscan
    simp only at hscan
    subst hscan
    simp only [Object.findSymbolByAddress]
    rw [hpair]
  · intro h1 p hp2
    have hs1 := findSymScan_none secs addr ty symtab (undef, ([], false)) (hnocov _ h1)
    have hs2 := findSymScan_found secs addr ty dynsym
      (scanFallback (undef, ([], false))
        (symtab.filter (fun c => decide (zeroRecord secs addr ty c.1)))) p hp2
    rcases hpair2 : findSymScan secs addr ty dynsym
        (scanFallback (undef, ([], false))
          (symtab.filter (fun c => decide (zeroRecord secs addr ty c.1)))) with ⟨res2, st2⟩
    rw [hpair2] at hs2
    simp only at hs2
    subst hs2
    simp only [Object.findSymbolByAddress, hs1, hpair2]
  · intro h1 h2 d r hdd hr
    subst hdd
    have hs1 := findSymScan_none secs addr ty symtab (undef, ([], false)) (hnocov _ h1)
    have hs2 := findSymScan_none secs addr ty dynsym
      (scanFallback (undef, ([], false))
        (symtab.filter (fun c => decide (zeroRecord secs addr ty c.1)))) (hnocov _ h2)
    simp only [Object.findSymbolByAddress, hs1, hs2, hr]
  · intro h1 h2 hnested z hz
    have hs1 := findSymScan_none secs addr ty symtab (undef, ([], false)) (hnocov _ h1)
    have hs2 := findSymScan_none secs addr ty dynsym
      (scanFallback (undef, ([], false))
        (symtab.filter (fun c => decide (zeroRecord secs addr ty c.1)))) (hnocov _ h2)
    rw [List.filter_append, List.getLast?_append] at hz
    have hfinal : scanFallback
        (scanFallback (undef, ([], false))
          (symtab.filter (fun c => decide (zeroRecord secs addr ty c.1))))
        (dynsym.filter (fun c => decide (zeroRecord secs addr ty c.1))) =
        ({ z.1 with st_shndx := SHN_UNDEF }, z.2, true) := by
      cases hgl2 : (dynsym.filter (fun c => decide (zeroRecord secs addr ty c.1))).getLast? with
      | some z2 =>
        rw [hgl2] at hz
        simp only [Option.or_some] at hz
        cases hz
        rw [scanFallback, hgl2]
      | none =>
        rw [hgl2] at hz
        simp only [Option.or] at hz
        rw [scanFallback, hgl2, scanFallback, hz]
    cases dd with
    | none =>
      simp only [Object.findSymbolByAddress, hs1, hs2, hfinal]
      rw [if_pos trivial]
    | some d =>
      simp only [Object.findSymbolByAddress, hs1, hs2, hfinal, hnested d rfl]
      rw [if_pos trivial]
  · intro h1 h2 hnested hz
    have hs1 := findSymScan_none secs addr ty symtab (undef, ([], false)) (hnocov _ h1)
    have hs2 := findSymScan_none secs addr ty dynsym
      (scanFallback (undef, ([], false))
        (symtab.filter (fun c => decide (zeroRecord secs addr ty c.1)))) (hnocov _ h2)
    rw [List.filter_append, List.append_eq_nil] at hz
    rw [hz.1] at hs1 hs2
    rw [hz.2] at hs2
    cases dd with
    | none =>
      simp only [Object.findSymbolByAddress, hs1, hs2]
      rfl
    | some d =>
      simp only [Object.findSymbolByAddress, hs1, hs2, hnested d rfl]
      rfl


/-- Witness for C2: `.symtab` holds only a zero-size exact match at the
address; `.dynsym` holds a covering symbol; the covering symbol wins. -/
theorem findSymbolByAddress_spec_witness :
    (Object.mk
        [nullSection,
         { name := ".text".data, shdr := { sh_type := 1, sh_flags := 2, sh_addr := 0 } }]
        [] []
        [({ st_name := 1, st_value := 256, st_size := 0, st_info := 2, st_shndx := 1 },
          "zero".data)]
        [({ st_name := 2, st_value := 256, st_size := 16, st_info := 2, st_shndx := 1 },
          "cov".data)]
        none none none).findSymbolByAddress 256 2
      = some ({ st_name := 2, st_value := 256, st_size := 16, st_info := 2, st_shndx := 1 },
          "cov".data) :=
  (findSymbolByAddress_spec
      [nullSection,
       { name := ".text".data, shdr := { sh_type := 1, sh_flags := 2, sh_addr := 0 } }]
      [] []
      [({ st_name := 1, st_value := 256, st_size := 0, st_info := 2, st_shndx := 1 },
        "zero".data)]
      [({ st_name := 2, st_value := 256, st_size := 16, st_info := 2, st_shndx := 1 },
        "cov".data)]
      none none none 256 2).2.1 (by decide) _ (by decide)


/-! ## C4 and C9: hash-accelerated dynamic symbol lookup -/

/-- Inside one bucket's run the GNU chain walk finds a symbol named `n`. -/
theorem gnuChainScan_finds (g : GnuHash) (wf : GnuWF g) (n : List Char) (i : Nat)
    (hi1 : g.header.symoffset ≤ i) (hi2 : i < g.syms.length) (hname : g.nameAt i = n) :
    ∀ (fuel j : Nat), g.header.symoffset ≤ j → j ≤ i → g.bucketOf j = g.bucketOf i →
      i + 1 - j ≤ fuel →
      ∃ k, j ≤ k ∧ k ≤ i ∧
        gnuChainScan g n (gnu_hash n) j fuel = (k, g.syms.getD k undef) ∧ g.nameAt k = n := by
  intro fuel
  induction fuel with
  | zero =>
    intro j hj1 hj2 hbj hfuel
    omega
  | succ f ih =>
    intro j hj1 hj2 hbj hfuel
    simp only [gnuChainScan]
    by_cases hmatch : (g.chain.getD (j - g.header.symoffset) 0 ||| 1) = (gnu_hash n ||| 1) ∧
        g.strings (g.syms.getD j undef).st_name = n
    · rw [if_pos hmatch]
      exact ⟨j, le_refl j, hj2, rfl, hmatch.2⟩
    · have hji : j ≠ i := by
        intro he
        subst he
        refine hmatch ⟨?_, ?_⟩
        · rw [wf.chain_hash j hi2 hj1, hname]
        · exact hname
      rw [if_neg hmatch]
      have hb1 : g.bucketOf j ≤ g.bucketOf (j + 1) :=
        wf.buckets_sorted j (by omega) (j + 1) (by omega) hj1 (by omega)
      have hb2 : g.bucketOf (j + 1) ≤ g.bucketOf i :=
        wf.buckets_sorted (j + 1) (by omega) i hi2 (by omega) (by omega)
      have hnotlast : ¬ (g.chain.getD (j - g.header.symoffset) 0 &&& 1 ≠ 0) := by
        intro hlsb
        rcases (wf.chain_end j (by omega) hj1).1 hlsb with h | h
        · omega
        · exact h.2 (by omega)
      rw [if_neg hnotlast]
      obtain ⟨k, hk1, hk2, hk3, hk4⟩ :=
        ih (j + 1) (by omega) (by omega) (by omega) (by omega)
      exact ⟨k, by omega, hk2, hk3, hk4⟩

/-- The GNU chain walk misses when the name occurs nowhere in the table. -/
theorem gnuChainScan_misses (g : GnuHash) (wf : GnuWF g) (n : List Char)
    (habsent : g.lacksName n) :
    ∀ (fuel j : Nat), g.header.symoffset ≤ j → j < g.syms.length →
      g.syms.length - j ≤ fuel →
      gnuChainScan g n (gnu_hash n) j fuel = (0, undef) := by
  intro fuel
  induction fuel with
  | zero =>
    intro j hj1 hj2 hfuel
    omega
  | succ f ih =>
    intro j hj1 hj2 hfuel
    simp only [gnuChainScan]
    rw [if_neg (fun hmatch => habsent j hj2 hmatch.2)]
    by_cases hlsb : g.chain.getD (j - g.header.symoffset) 0 &&& 1 ≠ 0
    · rw [if_pos hlsb]
    · rw [if_neg hlsb]
      have hnext : j + 1 < g.syms.length := by
        rcases Nat.lt_or_ge (j + 1) g.syms.length with h | h
        · exact h
        · exfalso
          exact hlsb ((wf.chain_end j hj2 hj1).2 (Or.inl (by omega)))
      exact ih (j + 1) (by omega) hnext (by omega)

/-- `GnuHash::findSymbol` finds every name present in the hashed region of
its `.dynsym` view: nonzero index, name resolving back to the query. -/
theorem GnuHash.gnuFindSymbol_finds (g : GnuHash) (wf : GnuWF g) (n : List Char)
    (hpresent : g.hasName n) :
    (g.findSymbol n).1 ≠ 0 ∧ g.strings ((g.findSymbol n).2.st_name) = n := by
  obtain ⟨i, hi1, hi2, hname⟩ := hpresent
  have hhash : gnu_hash (g.nameAt i) = gnu_hash n := by rw [hname]
  have hbloom := wf.bloom_ok i hi2 hi1
  rw [hhash] at hbloom
  have hbucket := wf.bucket_covers i hi2 hi1
  have hbeq : gnu_hash n % g.header.nbuckets = g.bucketOf i := by
    rw [GnuHash.bucketOf, hname]
  simp only [GnuHash.findSymbol]
  rw [if_neg (fun hc => hc hbloom), hbeq,
    if_neg (by omega)]
  obtain ⟨k, hk1, hk2, hk3, hk4⟩ := gnuChainScan_finds g wf n i hi1 hi2 hname
    g.chain.length (g.buckets.getD (g.bucketOf i) 0) hbucket.1 hbucket.2.1 hbucket.2.2
    (by have := wf.chain_size; omega)
  rw [hk3]
  have hkoff : g.header.symoffset ≤ k := le_trans hbucket.1 hk1
  exact ⟨by have := wf.symoffset_pos; omega, hk4⟩

/-- `GnuHash::findSymbol` returns the miss pair `(0, undef)` for a name
absent from its `.dynsym` view. -/
theorem GnuHash.gnuFindSymbol_misses (g : GnuHash) (wf : GnuWF g) (n : List Char)
    (habsent : g.lacksName n) :
    g.findSymbol n = (0, undef) := by
  simp only [GnuHash.findSymbol]
  by_cases hbloom : g.bloom.getD ((gnu_hash n / ELF_BITS) % g.header.bloom_size) 0 &&&
      gnuBloomMask g.header.bloom_shift (gnu_hash n) ≠
      gnuBloomMask g.header.bloom_shift (gnu_hash n)
  · rw [if_pos hbloom]
  · rw [if_neg hbloom]
    have hblt : gnu_hash n % g.header.nbuckets < g.header.nbuckets :=
      Nat.mod_lt _ wf.nbuckets_pos
    rcases wf.bucket_sound (gnu_hash n % g.header.nbuckets) hblt with h | h
    · rw [if_pos h]
    · rw [if_neg (by omega)]
      exact gnuChainScan_misses g wf n habsent g.chain.length _ h.1 h.2.1
        (by have := wf.chain_size; omega)


/-- The SysV chain walk finds a match when some index on the walked chain
carries the queried name. -/
theorem sysvScan_finds (h : SymHash) (n : List Char) :
    ∀ (fuel start : Nat),
      (∃ j ∈ sysvChainSeq h start fuel, h.nameAt j = n) →
      ∃ k, sysvScan h n start fuel = (k, h.syms.getD k undef) ∧ k ≠ 0 ∧ h.nameAt k = n := by
  intro fuel
  induction fuel with
  | zero =>
    intro start hj
    obtain ⟨j, hjm, _⟩ := hj
    cases hjm
  | succ f ih =>
    intro start hj
    obtain ⟨j, hjm, hjn⟩ := hj
    by_cases hs : start = STN_UNDEF
    · rw [sysvChainSeq, if_pos hs] at hjm
      cases hjm
    · rw [sysvChainSeq, if_neg hs] at hjm
      simp only [sysvScan]
      rw [if_neg hs]
      by_cases hname : h.strings (h.syms.getD start undef).st_name = n
      · rw [if_pos hname]
        exact ⟨start, rfl, hs, hname⟩
      · rw [if_neg hname]
        rcases List.mem_cons.1 hjm with he | hm
        · exact absurd (he ▸ hjn) hname
        · exact ih (h.chains.getD start 0) ⟨j, hm, hjn⟩

/-- The SysV chain walk returns the miss pair when no walked index carries
the queried name. -/
theorem sysvScan_misses (h : SymHash) (n : List Char) :
    ∀ (fuel start : Nat),
      (∀ j ∈ sysvChainSeq h start fuel, h.nameAt j ≠ n) →
      sysvScan h n start fuel = (0, undef) := by
  intro fuel
  induction fuel with
  | zero => intro start _; rfl
  | succ f ih =>
    intro start hnone
    by_cases hs : start = STN_UNDEF
    · simp only [sysvScan]
      rw [if_pos hs]
    · simp only [sysvScan]
      rw [if_neg hs,
        if_neg (show ¬ h.strings (h.syms.getD start undef).st_name = n from
          hnone start (by rw [sysvChainSeq, if_neg hs]; exact List.mem_cons_self _ _))]
      refine ih (h.chains.getD start 0) (fun j hj => hnone j ?_)
      rw [sysvChainSeq, if_neg hs]
      exact List.mem_cons_of_mem _ hj

/-- `SymHash::findSymbol` finds every name present at a nonzero index of its
`.dynsym` view. -/
theorem SymHash.sysvFindSymbol_finds (h : SymHash) (wf : SysvWF h) (n : List Char)
    (i : Nat) (hpresent : h.hasName n i) :
    (h.findSymbol n).1 ≠ 0 ∧ h.strings ((h.findSymbol n).2.st_name) = n := by
  obtain ⟨hi0, hilen, hname⟩ := hpresent
  have hreach := wf.reach i hilen hi0
  rw [hname] at hreach
  obtain ⟨k, hk1, hk2, hk3⟩ := sysvScan_finds h n (h.nchain + 1)
    (h.buckets.getD (elf_hash n % h.nbucket) 0) ⟨i, hreach, hname⟩
  simp only [SymHash.findSymbol]
  rw [hk1]
  exact ⟨hk2, hk3⟩

/-- `SymHash::findSymbol` returns the miss pair for a name absent from its
`.dynsym` view. -/
theorem SymHash.sysvFindSymbol_misses (h : SymHash) (wf : SysvWF h) (n : List Char)
    (habsent : h.lacksName n) :
    h.findSymbol n = (0, undef) := by
  simp only [SymHash.findSymbol]
  refine sysvScan_misses h n (h.nchain + 1) _ (fun j hj => ?_)
  have hblt : elf_hash n % h.nbucket < h.nbucket := Nat.mod_lt _ wf.nbucket_pos
  exact habsent j (wf.chain_inrange _ hblt j hj)


/-- C4: `findDynamicSymbol(name)`.  Over a well-formed accelerator indexing
the image's `.dynsym` view: every present name yields a nonzero index and a
symbol whose name resolves back to the query; an absent name, or an image
with neither accelerator, yields `(undef, 0)`.  The GNU hash is preferred:
with a `.gnu_hash` section the result is determined by the GNU lookup alone
(the SysV slot is immaterial). -/
theorem findDynamicSymbol_spec
    (secs : List Section) (named : List (List Char × Nat)) (phdrs : List (Nat × List Phdr))
    (symtab dynsym : List (Sym × List Char)) (dd : Option Object) (n : List Char) :
    (∀ (g : GnuHash) (sh : Option SymHash), GnuWF g →
      (g.hasName n →
        ((Object.mk secs named phdrs symtab dynsym (some g) sh dd).findDynamicSymbol n).2 ≠ 0 ∧
        g.strings
          (((Object.mk secs named phdrs symtab dynsym (some g) sh dd).findDynamicSymbol
            n).1.st_name) = n) ∧
      (g.lacksName n →
        (Object.mk secs named phdrs symtab dynsym (some g) sh dd).findDynamicSymbol n =
          (undef, 0))) ∧
    (∀ (s : SymHash), SysvWF s →
      (∀ i, s.hasName n i →
        ((Object.mk secs named phdrs symtab dynsym none (some s) dd).findDynamicSymbol n).2 ≠ 0 ∧
        s.strings
          (((Object.mk secs named phdrs symtab dynsym none (some s) dd).findDynamicSymbol
            n).1.st_name) = n) ∧
      (s.lacksName n →
        (Object.mk secs named phdrs symtab dynsym none (some s) dd).findDynamicSymbol n =
          (undef, 0))) ∧
    ((Object.mk secs named phdrs symtab dynsym none none dd).findDynamicSymbol n =
      (undef, 0)) ∧
    (∀ (g : GnuHash) (s1 s2 : Option SymHash),
      (Object.mk secs named phdrs symtab dynsym (some g) s1 dd).findDynamicSymbol n =
      (Object.mk secs named phdrs symtab dynsym (some g) s2 dd).findDynamicSymbol n) := by
  refine ⟨?_, ?_, rfl, fun g s1 s2 => rfl⟩
  · intro g sh wf
    constructor
    · intro hpres
      have hfind := GnuHash.gnuFindSymbol_finds g wf n hpres
      simp only [Object.findDynamicSymbol, Object.gnuHash]
      rw [if_neg hfind.1]
      exact ⟨hfind.1, hfind.2⟩
    · intro habs
      have hmiss := GnuHash.gnuFindSymbol_misses g wf n habs
      simp only [Object.findDynamicSymbol, Object.gnuHash]
      rw [hmiss]
      rfl
  · intro s wf
    constructor
    · intro i hpres
      have hfind := SymHash.sysvFindSymbol_finds s wf n i hpres
      simp only [Object.findDynamicSymbol, Object.gnuHash, Object.sysvHash]
      rw [if_neg hfind.1]
      exact ⟨hfind.1, hfind.2⟩
    · intro habs
      have hmiss := SymHash.sysvFindSymbol_misses s wf n habs
      simp only [Object.findDynamicSymbol, Object.gnuHash, Object.sysvHash]
      rw [hmiss]
      rfl


/-- Witness for C4: the one-symbol GNU-hashed image resolves `"f"` to a
nonzero index with the right name; with no accelerator the result is
`(undef, 0)`. -/
theorem findDynamicSymbol_spec_witness :
    (((Object.mk [] [] [] [] [] (some gnuSample) none none).findDynamicSymbol "f".data).2 ≠ 0 ∧
      gnuSample.strings
        (((Object.mk [] [] [] [] [] (some gnuSample) none none).findDynamicSymbol
          "f".data).1.st_name) = "f".data) ∧
    (((Object.mk [] [] [] [] [] none (some sysvSample) none).findDynamicSymbol
        "f".data).2 ≠ 0) ∧
    (Object.mk [] [] [] [] [] none none none).findDynamicSymbol "f".data = (undef, 0) := by
  have h := findDynamicSymbol_spec [] [] [] [] [] none "f".data
  refine ⟨(h.1 gnuSample none ?_).1 ⟨1, by decide, by decide, by decide⟩,
    ((h.2.1 sysvSample ?_).1 1 ⟨by decide, by decide, by decide⟩).1, h.2.2.1⟩
  · exact ⟨by decide, by decide, by decide, by decide, by decide, by decide, by decide,
      by decide, by decide, by decide⟩
  · exact ⟨by decide, by decide, by decide, by decide, by decide⟩

/-- C9: with a GNU hash table present, `findDynamicSymbol` consults only the
GNU lookup: the result does not depend on the SysV slot at all, and a GNU
miss (Bloom rejection, bucket below `symoffset`, or chain exhaustion) makes
the result `(undef, 0)` without any SysV fallback, even when a `.hash`
section is also present. -/
theorem findDynamicSymbol_gnu_only
    (secs : List Section) (named : List (List Char × Nat)) (phdrs : List (Nat × List Phdr))
    (symtab dynsym : List (Sym × List Char)) (g : GnuHash) (sh : Option SymHash)
    (dd : Option Object) (n : List Char) :
    ((Object.mk secs named phdrs symtab dynsym (some g) sh dd).findDynamicSymbol n =
      (Object.mk secs named phdrs symtab dynsym (some g) none dd).findDynamicSymbol n) ∧
    ((g.findSymbol n).1 = 0 →
      (Object.mk secs named phdrs symtab dynsym (some g) sh dd).findDynamicSymbol n =
        (undef, 0)) := by
  refine ⟨rfl, fun hm => ?_⟩
  simp only [Object.findDynamicSymbol, Object.gnuHash]
  rw [if_pos hm]

/-- Witness for C9: the Bloom filter rejects `"f"`, so the lookup misses
with `(undef, 0)` even though the SysV table present in the same image
resolves `"f"` at index 1. -/
theorem findDynamicSymbol_gnu_only_witness :
    (Object.mk [] [] [] [] [] (some gnuRejectSample) (some sysvSample)
        none).findDynamicSymbol "f".data = (undef, 0) ∧
    (sysvSample.findSymbol "f".data).1 = 1 :=
  ⟨(findDynamicSymbol_gnu_only [] [] [] [] [] gnuRejectSample (some sysvSample)
      none "f".data).2 (by decide),
    by decide⟩

end Pstack.Elf
